import Mathlib

/-!
# Verification of the tm-express Authentication & Authorization Session Engine

Shallow embedding, in Lean 4, of the core of the `tm-express` repository:

* the token codec (`src/utils/jwt.js`: `Jwt.issueToken`, `Jwt.verifyToken`,
  `Jwt.base64UrlEncode`, `Jwt.base64UrlDecode`, `Jwt.signature`),
* the auth middleware (`src/middleware/auth.js`: `tokenCheck`,
  `requirePermissions`, `getUserPermissions`),
* the logout handler (`src/controllers/authController.js`: `exports.logout`),
* the menu builder (`src/controllers/account.controller.js`: `toMenu`),
* the OIDC client refresh (`src/libs/openIDClient.js`: `refreshAccessToken`).

Modelling conventions:

* JavaScript strings are modelled as their byte sequences (`Str := List Nat`,
  each element a byte).  All string literals occurring in the engine are
  ASCII, so `Buffer.from(s)` (UTF-8 encoding) is the identity on this
  representation.
* `Date.now()` and `Math.random()` side effects are made explicit parameters
  (`now : Int`, `jti : Str`).
* HMAC-SHA256 with the fixed module key is an explicit function parameter
  `hmac : Str → Str`; the engine only ever recomputes and compares it, so no
  cryptographic property is needed or assumed.
* `JSON.stringify` / `JSON.parse` are modelled by a serializer and a
  fuel-indexed parser for the JSON fragment the engine produces and consumes
  (strings with `\"`/`\\` escapes, integers, flat-or-nested objects and
  arrays, no whitespace).  Parse failure models a thrown `SyntaxError`.
* Fallible JS functions returning `false`/throwing are modelled with
  `Option`.
-/

/-- A JavaScript string, as its sequence of bytes (all engine literals are
ASCII, so UTF-8 encoding is the identity on this representation). -/
abbrev Str := List Nat

/-- Byte sequence of an ASCII Lean string literal. -/
def strBytes (s : String) : Str := s.data.map Char.toNat

/-- `String.prototype.split(sep)` for a single-character separator:
splits into the (possibly empty) chunks between occurrences of `sep`. -/
def jsSplit (sep : Nat) : Str → List Str
  | [] => [[]]
  | c :: r =>
    if c = sep then [] :: jsSplit sep r
    else
      match jsSplit sep r with
      | h :: t => (c :: h) :: t
      | [] => [[c]]

theorem jsSplit_ne_nil (sep : Nat) (s : Str) : jsSplit sep s ≠ [] := by
  cases s with
  | nil => simp [jsSplit]
  | cons c r =>
    simp only [jsSplit]
    split
    · simp
    · split <;> simp_all

/-- Splitting a separator-free chunk followed by `sep :: rest` peels off the
chunk. -/
theorem jsSplit_append_sep (sep : Nat) :
    ∀ (a rest : Str), sep ∉ a →
      jsSplit sep (a ++ sep :: rest) = a :: jsSplit sep rest := by
  intro a
  induction a with
  | nil => intro rest _; simp [jsSplit]
  | cons c t ih =>
    intro rest hmem
    have hc : c ≠ sep := by
      intro h; exact hmem (by simp [h])
    have ht : sep ∉ t := fun h => hmem (List.mem_cons_of_mem _ h)
    have hih := ih rest ht
    simp only [List.cons_append, jsSplit, if_neg hc, List.append_eq, hih]

/-- Splitting a separator-free string yields that single chunk. -/
theorem jsSplit_no_sep (sep : Nat) :
    ∀ (a : Str), sep ∉ a → jsSplit sep a = [a] := by
  intro a
  induction a with
  | nil => intro _; simp [jsSplit]
  | cons c t ih =>
    intro hmem
    have hc : c ≠ sep := by
      intro h; exact hmem (by simp [h])
    have ht : sep ∉ t := fun h => hmem (List.mem_cons_of_mem _ h)
    simp only [jsSplit, if_neg hc, ih ht]

/-- A dot-separated three-segment string with dot-free segments splits into
exactly those three segments (the `str.split('.')` step of `verifyToken`). -/
theorem jsSplit_three (sep : Nat) (a b c : Str)
    (ha : sep ∉ a) (hb : sep ∉ b) (hc : sep ∉ c) :
    jsSplit sep (a ++ sep :: (b ++ sep :: c)) = [a, b, c] := by
  rw [jsSplit_append_sep sep a _ ha, jsSplit_append_sep sep b _ hb,
    jsSplit_no_sep sep c hc]

/-!
## Base64url codec

`Jwt.base64UrlEncode` encodes to standard base64, replaces `+`/`/` with
`-`/`_`, and strips `=` padding; `Jwt.base64UrlDecode` restores padding and
the standard alphabet and decodes.  We model the composite directly on byte
lists, with the URL-safe alphabet built in; padding add/strip cancels out and
is not represented.
-/

/-- Sextet to URL-safe base64 alphabet byte (`A-Z a-z 0-9 - _`). -/
def b64c (n : Nat) : Nat :=
  if n < 26 then 65 + n
  else if n < 52 then 97 + (n - 26)
  else if n < 62 then 48 + (n - 52)
  else if n = 62 then 45
  else 95

/-- URL-safe base64 alphabet byte back to its sextet. -/
def b64d (ch : Nat) : Nat :=
  if 65 ≤ ch ∧ ch ≤ 90 then ch - 65
  else if 97 ≤ ch ∧ ch ≤ 122 then ch - 97 + 26
  else if 48 ≤ ch ∧ ch ≤ 57 then ch - 48 + 52
  else if ch = 45 then 62
  else if ch = 95 then 63
  else 0

/-- `Jwt.base64UrlEncode` on bytes: base64url without padding. -/
def b64enc : Str → Str
  | [] => []
  | [a] => [b64c (a / 4), b64c (a % 4 * 16)]
  | [a, b] => [b64c (a / 4), b64c (a % 4 * 16 + b / 16), b64c (b % 16 * 4)]
  | a :: b :: c :: t =>
    b64c (a / 4) :: b64c (a % 4 * 16 + b / 16) ::
      b64c (b % 16 * 4 + c / 64) :: b64c (c % 64) :: b64enc t

/-- `Jwt.base64UrlDecode` on bytes (well-formed, padding-stripped input). -/
def b64decode : Str → Str
  | [] => []
  | [_] => []
  | [a, b] => [b64d a * 4 + b64d b / 16]
  | [a, b, c] => [b64d a * 4 + b64d b / 16, b64d b % 16 * 16 + b64d c / 4]
  | a :: b :: c :: d :: t =>
    (b64d a * 4 + b64d b / 16) :: (b64d b % 16 * 16 + b64d c / 4) ::
      ((b64d c % 4 * 64 + b64d d) :: b64decode t)

/-- Every byte list consisting of actual bytes (< 256). -/
def AllBytes (s : Str) : Prop := ∀ b ∈ s, b < 256

instance (s : Str) : Decidable (AllBytes s) := by
  unfold AllBytes
  infer_instance

theorem b64d_b64c {n : Nat} (h : n < 64) : b64d (b64c n) = n := by
  interval_cases n <;> rfl

/-- The base64url alphabet never contains the dot (byte 46). -/
theorem b64c_ne_dot (n : Nat) : b64c n ≠ 46 := by
  unfold b64c
  split
  · omega
  · split
    · omega
    · split
      · omega
      · split <;> omega

theorem b64enc_not_mem_dot : ∀ (s : Str), 46 ∉ b64enc s := by
  intro s
  induction s using b64enc.induct with
  | case1 => simp [b64enc]
  | case2 a =>
    simp only [b64enc, List.mem_cons, List.not_mem_nil, or_false]
    exact fun h => h.elim (fun h1 => b64c_ne_dot _ h1.symm)
      (fun h1 => b64c_ne_dot _ h1.symm)
  | case3 a b =>
    simp only [b64enc, List.mem_cons, List.not_mem_nil, or_false]
    rintro (h1 | h1 | h1) <;> exact b64c_ne_dot _ h1.symm
  | case4 a b c t ih =>
    simp only [b64enc, List.mem_cons]
    rintro (h1 | h1 | h1 | h1 | h1)
    · exact b64c_ne_dot _ h1.symm
    · exact b64c_ne_dot _ h1.symm
    · exact b64c_ne_dot _ h1.symm
    · exact b64c_ne_dot _ h1.symm
    · exact ih h1

/-- Decoding inverts encoding on byte lists (the padding handling of the
source cancels between encode and decode). -/
theorem b64decode_b64enc : ∀ (s : Str), AllBytes s → b64decode (b64enc s) = s := by
  intro s
  induction s using b64enc.induct with
  | case1 => intro _; rfl
  | case2 a =>
    intro h
    have ha : a < 256 := h a (by simp)
    simp only [b64enc, b64decode]
    rw [b64d_b64c (by omega), b64d_b64c (by omega)]
    congr 1
    omega
  | case3 a b =>
    intro h
    have ha : a < 256 := h a (by simp)
    have hb : b < 256 := h b (by simp)
    simp only [b64enc, b64decode]
    rw [b64d_b64c (by omega), b64d_b64c (by omega), b64d_b64c (by omega)]
    congr 1
    · omega
    · congr 1
      omega
  | case4 a b c t ih =>
    intro h
    have ha : a < 256 := h a (by simp)
    have hb : b < 256 := h b (by simp)
    have hc : c < 256 := h c (by simp)
    have ht : AllBytes t := fun x hx => h x (by simp [hx])
    simp only [b64enc, b64decode]
    rw [b64d_b64c (by omega), b64d_b64c (by omega), b64d_b64c (by omega),
      b64d_b64c (by omega)]
    rw [ih ht]
    simp only [List.cons.injEq, and_true]
    exact ⟨by omega, by omega, by omega⟩

/-!
## Mini JSON model

`JSON.stringify` / `JSON.parse` restricted to the fragment the engine
produces and consumes: strings (with `\"` and `\\` escapes), integers,
objects and arrays, no whitespace.  The parser is fuel-indexed; parse
failure models a thrown `SyntaxError`.
-/

/-- JSON values of the fragment used by the engine. -/
inductive JVal where
  | jstr : Str → JVal
  | jnum : Int → JVal
  | jobj : List (Str × JVal) → JVal
  | jarr : List JVal → JVal

/-- String-content escaping done by `JSON.stringify` (quote and backslash). -/
def escapeStr (s : Str) : Str :=
  s.flatMap (fun b => if b = 34 ∨ b = 92 then [92, b] else [b])

/-- `JSON.stringify` of a string: quoted, escaped content. -/
def serStrJ (s : Str) : Str := 34 :: (escapeStr s ++ [34])

/-- Little-endian base-10 digit list of `n` (`fuel ≥ n` suffices). -/
def natDigitsAux : Nat → Nat → List Nat
  | 0, _ => []
  | _ + 1, 0 => []
  | f + 1, n + 1 => ((n + 1) % 10) :: natDigitsAux f ((n + 1) / 10)

/-- Decimal byte representation of a natural number. -/
def serNat (n : Nat) : Str :=
  if n = 0 then [48] else (natDigitsAux n n).reverse.map (fun d => 48 + d)

/-- `JSON.stringify` of an integer. -/
def serInt : Int → Str
  | .ofNat n => serNat n
  | .negSucc m => 45 :: serNat (m + 1)

mutual

/-- `JSON.stringify` on `JVal`. -/
def serJ : JVal → Str
  | .jstr s => serStrJ s
  | .jnum n => serInt n
  | .jobj ms => 123 :: (serMembers ms ++ [125])
  | .jarr vs => 91 :: (serItems vs ++ [93])

/-- Comma-separated `"key":value` members of an object body. -/
def serMembers : List (Str × JVal) → Str
  | [] => []
  | [(k, v)] => serStrJ k ++ (58 :: serJ v)
  | (k, v) :: m :: ms => serStrJ k ++ (58 :: serJ v) ++ (44 :: serMembers (m :: ms))

/-- Comma-separated items of an array body. -/
def serItems : List JVal → Str
  | [] => []
  | [v] => serJ v
  | v :: w :: vs => serJ v ++ (44 :: serItems (w :: vs))

end

mutual

/-- Parse the body of a JSON string after its opening quote. -/
def parseStrBody : Str → Option (Str × Str)
  | [] => none
  | c :: r =>
    if c = 34 then some ([], r)
    else if c = 92 then parseStrEsc r
    else
      match parseStrBody r with
      | some (s, r2) => some (c :: s, r2)
      | none => none

/-- Parse the character following a backslash escape inside a string. -/
def parseStrEsc : Str → Option (Str × Str)
  | [] => none
  | e :: r =>
    if e = 34 ∨ e = 92 then
      match parseStrBody r with
      | some (s, r2) => some (e :: s, r2)
      | none => none
    else none

end

/-- Greedily consume decimal digits, accumulating their value. -/
def parseDigits : Nat → Str → Nat × Str
  | acc, [] => (acc, [])
  | acc, c :: r =>
    if 48 ≤ c ∧ c ≤ 57 then parseDigits (acc * 10 + (c - 48)) r else (acc, c :: r)

/-- Parse the digits of a negative number after its minus sign. -/
def parseNeg : Str → Option (JVal × Str)
  | [] => none
  | c :: r =>
    if 48 ≤ c ∧ c ≤ 57 then
      match parseDigits 0 (c :: r) with
      | (n, r2) => some (.jnum (-(n : Int)), r2)
    else none

mutual

/-- Fuel-indexed JSON value parser; returns the value and the rest. -/
def parseJ : Nat → Str → Option (JVal × Str)
  | 0, _ => none
  | _ + 1, [] => none
  | f + 1, c :: r =>
    if c = 34 then
      match parseStrBody r with
      | some (s, r2) => some (.jstr s, r2)
      | none => none
    else if c = 123 then
      match parseMembers f r with
      | some (ms, r2) => some (.jobj ms, r2)
      | none => none
    else if c = 91 then
      match parseItems f r with
      | some (vs, r2) => some (.jarr vs, r2)
      | none => none
    else if c = 45 then parseNeg r
    else if 48 ≤ c ∧ c ≤ 57 then
      match parseDigits 0 (c :: r) with
      | (n, r2) => some (.jnum (n : Int), r2)
    else none

/-- Parse object members up to and including the closing brace. -/
def parseMembers : Nat → Str → Option (List (Str × JVal) × Str)
  | 0, _ => none
  | _ + 1, [] => none
  | f + 1, c :: r =>
    if c = 125 then some ([], r)
    else if c = 34 then
      match parseStrBody r with
      | some (k, c2 :: r2) =>
        if c2 = 58 then
          match parseJ f r2 with
          | some (v, c3 :: r3) =>
            if c3 = 44 then
              match parseMembers f r3 with
              | some (ms, r4) => some ((k, v) :: ms, r4)
              | none => none
            else if c3 = 125 then some ([(k, v)], r3)
            else none
          | _ => none
        else none
      | _ => none
    else none

/-- Parse array items up to and including the closing bracket. -/
def parseItems : Nat → Str → Option (List JVal × Str)
  | 0, _ => none
  | _ + 1, [] => none
  | f + 1, c :: r =>
    if c = 93 then some ([], r)
    else
      match parseJ f (c :: r) with
      | some (v, c2 :: r2) =>
        if c2 = 44 then
          match parseItems f r2 with
          | some (vs, r3) => some (v :: vs, r3)
          | none => none
        else if c2 = 93 then some ([v], r2)
        else none
      | _ => none

end

/-- `JSON.parse`: whole-input parse of the fragment.  (The fuel is a
modelling artifact: any bound at least the nesting depth gives the same
result; `2·length + 2` dominates it.) -/
def parseJson (s : Str) : Option JVal :=
  match parseJ (2 * s.length + 2) s with
  | some (v, []) => some v
  | _ => none

mutual

/-- Recursion-depth measure used for parser fuel accounting. -/
def jsize : JVal → Nat
  | .jstr _ => 1
  | .jnum _ => 1
  | .jobj ms => 1 + msize ms
  | .jarr vs => 1 + isize vs

/-- Measure of an object member list. -/
def msize : List (Str × JVal) → Nat
  | [] => 1
  | (_, v) :: ms => 1 + jsize v + msize ms

/-- Measure of an array item list. -/
def isize : List JVal → Nat
  | [] => 1
  | v :: vs => 1 + jsize v + isize vs

end

/-- The rest of the input does not begin with a decimal digit (so greedy
number parsing stops exactly at the serialized boundary). -/
def NotDigitHead (r : Str) : Prop :=
  ∀ c cs, r = c :: cs → ¬(48 ≤ c ∧ c ≤ 57)

theorem notDigitHead_nil : NotDigitHead [] := by
  intro c cs h _; cases h

theorem notDigitHead_cons {c : Nat} (h : ¬(48 ≤ c ∧ c ≤ 57)) (cs : Str) :
    NotDigitHead (c :: cs) := by
  intro c' cs' he
  cases he
  exact h

/-- Unescaping performed by the string parser inverts `escapeStr`. -/
theorem parseStrBody_escape :
    ∀ (s r : Str), parseStrBody (escapeStr s ++ (34 :: r)) = some (s, r) := by
  intro s
  induction s with
  | nil =>
    intro r
    show parseStrBody (34 :: r) = some ([], r)
    simp [parseStrBody]
  | cons b t ih =>
    intro r
    by_cases hb : b = 34 ∨ b = 92
    · have he : escapeStr (b :: t) = 92 :: (b :: escapeStr t) := by
        simp [escapeStr, hb]
      rw [he]
      simp only [List.cons_append, parseStrBody, parseStrEsc]
      norm_num [hb, ih r]
    · have he : escapeStr (b :: t) = b :: escapeStr t := by
        simp [escapeStr, hb]
      rw [he]
      have h34 : b ≠ 34 := fun h => hb (Or.inl h)
      have h92 : b ≠ 92 := fun h => hb (Or.inr h)
      simp only [List.cons_append, parseStrBody, if_neg h34, if_neg h92,
        List.append_eq, ih r]

/-- Little-endian base-10 valuation. -/
def ofD : List Nat → Nat
  | [] => 0
  | d :: t => d + 10 * ofD t

theorem ofD_natDigitsAux : ∀ (f n : Nat), n ≤ f → ofD (natDigitsAux f n) = n := by
  intro f
  induction f with
  | zero =>
    intro n h
    interval_cases n
    rfl
  | succ f ih =>
    intro n h
    cases n with
    | zero => rfl
    | succ m =>
      have hdiv : (m + 1) / 10 ≤ f := by
        have := Nat.div_lt_self (Nat.succ_pos m) (by norm_num : 1 < 10)
        omega
      simp only [natDigitsAux, ofD, ih _ hdiv]
      omega

theorem natDigitsAux_lt : ∀ (f n d : Nat), d ∈ natDigitsAux f n → d < 10 := by
  intro f
  induction f with
  | zero => intro n d h; simp [natDigitsAux] at h
  | succ f ih =>
    intro n d h
    cases n with
    | zero => simp [natDigitsAux] at h
    | succ m =>
      simp only [natDigitsAux, List.mem_cons] at h
      rcases h with h | h
      · omega
      · exact ih _ _ h

theorem natDigitsAux_ne_nil : ∀ (f n : Nat), 0 < n → n ≤ f →
    natDigitsAux f n ≠ [] := by
  intro f n h1 h2
  cases f with
  | zero => omega
  | succ f =>
    cases n with
    | zero => omega
    | succ m => simp [natDigitsAux]

theorem foldl_rev_ofD : ∀ (ds : List Nat) (acc : Nat),
    List.foldl (fun a d => a * 10 + d) acc ds.reverse =
      acc * 10 ^ ds.length + ofD ds := by
  intro ds
  induction ds with
  | nil => intro acc; simp [ofD]
  | cons d t ih =>
    intro acc
    simp only [List.reverse_cons, List.foldl_append, List.foldl_cons,
      List.foldl_nil, ih, ofD, List.length_cons]
    ring

theorem parseDigits_append : ∀ (xs : List Nat) (acc : Nat) (r : Str),
    (∀ d ∈ xs, d < 10) →
    parseDigits acc (xs.map (fun d => 48 + d) ++ r) =
      parseDigits (xs.foldl (fun a d => a * 10 + d) acc) r := by
  intro xs
  induction xs with
  | nil => intro acc r _; simp
  | cons d t ih =>
    intro acc r h
    have hd : d < 10 := h d (by simp)
    have hdig : 48 ≤ 48 + d ∧ 48 + d ≤ 57 := by omega
    simp only [List.map_cons, List.cons_append, parseDigits, if_pos hdig,
      List.foldl_cons]
    have h48 : 48 + d - 48 = d := by omega
    rw [h48]
    have hih := ih (acc * 10 + d) r (fun x hx => h x (by simp [hx]))
    simp only [List.append_eq]
    exact hih

theorem parseDigits_stop : ∀ (acc : Nat) (r : Str), NotDigitHead r →
    parseDigits acc r = (acc, r) := by
  intro acc r h
  cases r with
  | nil => rfl
  | cons c cs => simp [parseDigits, h c cs rfl]

theorem serNat_all_digits : ∀ (n c : Nat), c ∈ serNat n → 48 ≤ c ∧ c ≤ 57 := by
  intro n c h
  unfold serNat at h
  split at h
  · simp at h
    omega
  · simp only [List.mem_map, List.mem_reverse] at h
    obtain ⟨d, hd, rfl⟩ := h
    have := natDigitsAux_lt n n d hd
    omega

theorem serNat_ne_nil (n : Nat) : serNat n ≠ [] := by
  unfold serNat
  split
  · simp
  · simp only [ne_eq, List.map_eq_nil_iff, List.reverse_eq_nil_iff]
    exact natDigitsAux_ne_nil n n (by omega) le_rfl

theorem parseDigits_serNat : ∀ (n : Nat) (r : Str), NotDigitHead r →
    parseDigits 0 (serNat n ++ r) = (n, r) := by
  intro n r h
  unfold serNat
  split
  · subst_vars
    have hdig : 48 ≤ 48 ∧ (48 : Nat) ≤ 57 := by omega
    simp only [List.cons_append, List.nil_append, parseDigits, if_pos hdig]
    simpa using parseDigits_stop 0 r h
  · rw [parseDigits_append _ 0 r
      (fun d hd => natDigitsAux_lt n n d (List.mem_reverse.mp hd))]
    rw [foldl_rev_ofD, ofD_natDigitsAux n n le_rfl]
    simpa using parseDigits_stop n r h

theorem parseJ_serInt : ∀ (f : Nat) (n : Int) (r : Str), NotDigitHead r →
    parseJ (f + 1) (serInt n ++ r) = some (.jnum n, r) := by
  intro f n r h
  cases n with
  | ofNat m =>
    obtain ⟨c, cs, hc⟩ : ∃ c cs, serNat m = c :: cs := by
      cases hn : serNat m with
      | nil => exact absurd hn (serNat_ne_nil m)
      | cons c cs => exact ⟨c, cs, rfl⟩
    have hdig : 48 ≤ c ∧ c ≤ 57 := serNat_all_digits m c (by simp [hc])
    have hp : parseDigits 0 (serNat m ++ r) = (m, r) := parseDigits_serNat m r h
    rw [hc, List.cons_append] at hp
    have h34 : c ≠ 34 := by omega
    have h123 : c ≠ 123 := by omega
    have h91 : c ≠ 91 := by omega
    have h45 : c ≠ 45 := by omega
    have estep : parseJ (f + 1) (c :: (cs ++ r)) =
        match parseDigits 0 (c :: (cs ++ r)) with
        | (n, r2) => some (.jnum (n : Int), r2) := by
      simp only [parseJ, if_neg h34, if_neg h123, if_neg h91, if_neg h45,
        if_pos hdig]
    show parseJ (f + 1) (serNat m ++ r) = some (.jnum (Int.ofNat m), r)
    rw [hc, List.cons_append, estep, hp]
    simp
  | negSucc m =>
    obtain ⟨c, cs, hc⟩ : ∃ c cs, serNat (m + 1) = c :: cs := by
      cases hn : serNat (m + 1) with
      | nil => exact absurd hn (serNat_ne_nil (m + 1))
      | cons c cs => exact ⟨c, cs, rfl⟩
    have hdig : 48 ≤ c ∧ c ≤ 57 := serNat_all_digits (m + 1) c (by simp [hc])
    have hp : parseDigits 0 (serNat (m + 1) ++ r) = (m + 1, r) :=
      parseDigits_serNat (m + 1) r h
    rw [hc, List.cons_append] at hp
    simp only [serInt, List.cons_append]
    have e45 : parseJ (f + 1) (45 :: (serNat (m + 1) ++ r)) =
        parseNeg (serNat (m + 1) ++ r) := by
      simp [parseJ]
    rw [e45, hc, List.cons_append]
    simp only [parseNeg, if_pos hdig]
    rw [hp]
    have : (-((m : Int) + 1)) = Int.negSucc m := by
      rw [Int.negSucc_eq]
    simp only [Option.some.injEq, Prod.mk.injEq, JVal.jnum.injEq]
    constructor
    · push_cast
      omega
    · trivial

/-- Every serialized value starts with a byte distinct from `]` (so the array
item parser takes its value branch). -/
theorem serJ_head : ∀ v : JVal, ∃ c cs, serJ v = c :: cs ∧ c ≠ 93 := by
  intro v
  cases v with
  | jstr s => exact ⟨34, escapeStr s ++ [34], rfl, by omega⟩
  | jnum n =>
    cases n with
    | ofNat m =>
      obtain ⟨c, cs, hc⟩ : ∃ c cs, serNat m = c :: cs := by
        cases hn : serNat m with
        | nil => exact absurd hn (serNat_ne_nil m)
        | cons c cs => exact ⟨c, cs, rfl⟩
      have hdig := serNat_all_digits m c (by simp [hc])
      exact ⟨c, cs, hc, by omega⟩
    | negSucc m => exact ⟨45, serNat (m + 1), rfl, by omega⟩
  | jobj ms => exact ⟨123, serMembers ms ++ [125], rfl, by omega⟩
  | jarr vs => exact ⟨91, serItems vs ++ [93], rfl, by omega⟩

theorem jsize_pos : ∀ v : JVal, 1 ≤ jsize v := by
  intro v
  cases v <;> simp [jsize]

theorem msize_pos : ∀ ms : List (Str × JVal), 1 ≤ msize ms := by
  intro ms
  cases ms with
  | nil => simp [msize]
  | cons kv t => obtain ⟨k, v⟩ := kv; simp only [msize]; omega

theorem isize_pos : ∀ vs : List JVal, 1 ≤ isize vs := by
  intro vs
  cases vs with
  | nil => simp [isize]
  | cons v t => simp only [isize]; omega

/-- Fuel-indexed round-trip: the parser inverts the serializer, given enough
fuel and a rest that does not begin with a digit. -/
theorem parse_ser : ∀ f : Nat,
    (∀ (v : JVal) (r : Str), NotDigitHead r → jsize v ≤ f →
      parseJ f (serJ v ++ r) = some (v, r)) ∧
    (∀ (ms : List (Str × JVal)) (r : Str), msize ms ≤ f →
      parseMembers f (serMembers ms ++ (125 :: r)) = some (ms, r)) ∧
    (∀ (vs : List JVal) (r : Str), isize vs ≤ f →
      parseItems f (serItems vs ++ (93 :: r)) = some (vs, r)) := by
  intro f
  induction f with
  | zero =>
    refine ⟨?_, ?_, ?_⟩
    · intro v r _ hsz; have := jsize_pos v; omega
    · intro ms r hsz; have := msize_pos ms; omega
    · intro vs r hsz; have := isize_pos vs; omega
  | succ f ih =>
    obtain ⟨ihP, ihQ, ihR⟩ := ih
    refine ⟨?_, ?_, ?_⟩
    · intro v r hnd hsz
      cases v with
      | jstr s =>
        show parseJ (f + 1) ((34 :: (escapeStr s ++ [34])) ++ r) = _
        rw [List.cons_append, List.append_assoc, List.singleton_append]
        simp [parseJ, parseStrBody_escape s r]
      | jnum n => exact parseJ_serInt f n r hnd
      | jobj ms =>
        have hms : msize ms ≤ f := by
          simp only [jsize] at hsz; omega
        have hq := ihQ ms r hms
        show parseJ (f + 1) ((123 :: (serMembers ms ++ [125])) ++ r) = _
        rw [List.cons_append, List.append_assoc, List.singleton_append]
        simp [parseJ, hq]
      | jarr vs =>
        have hvs : isize vs ≤ f := by
          simp only [jsize] at hsz; omega
        have hr := ihR vs r hvs
        show parseJ (f + 1) ((91 :: (serItems vs ++ [93])) ++ r) = _
        rw [List.cons_append, List.append_assoc, List.singleton_append]
        simp [parseJ, hr]
    · intro ms r hsz
      cases ms with
      | nil =>
        show parseMembers (f + 1) ([] ++ (125 :: r)) = _
        simp [parseMembers]
      | cons kv rest =>
        obtain ⟨k, v⟩ := kv
        cases rest with
        | nil =>
          have hsv : jsize v ≤ f := by
            simp only [msize] at hsz
            omega
          have hv := ihP v (125 :: r) (notDigitHead_cons (by omega) r) hsv
          show parseMembers (f + 1)
            (((34 :: (escapeStr k ++ [34])) ++ (58 :: serJ v)) ++ (125 :: r)) = _
          simp only [List.cons_append, List.append_assoc, List.singleton_append]
          have hk := parseStrBody_escape k (58 :: (serJ v ++ (125 :: r)))
          simp [parseMembers, hk, hv]
        | cons m ms2 =>
          obtain ⟨k2, v2⟩ := m
          have hj1 := jsize_pos v
          have hsv : jsize v ≤ f := by
            simp only [msize] at hsz; omega
          have hsm : msize ((k2, v2) :: ms2) ≤ f := by
            simp only [msize] at hsz ⊢; omega
          have hv := ihP v (44 :: (serMembers ((k2, v2) :: ms2) ++ (125 :: r)))
            (notDigitHead_cons (by omega) _) hsv
          have hq := ihQ ((k2, v2) :: ms2) r hsm
          show parseMembers (f + 1)
            ((((34 :: (escapeStr k ++ [34])) ++ (58 :: serJ v)) ++
              (44 :: serMembers ((k2, v2) :: ms2))) ++ (125 :: r)) = _
          simp only [List.cons_append, List.append_assoc, List.singleton_append]
          have hk := parseStrBody_escape k
            (58 :: (serJ v ++ (44 :: (serMembers ((k2, v2) :: ms2) ++ (125 :: r)))))
          simp only [List.append_assoc] at hv
          simp [parseMembers, hk, hv, hq]
    · intro vs r hsz
      cases vs with
      | nil =>
        show parseItems (f + 1) ([] ++ (93 :: r)) = _
        simp [parseItems]
      | cons v rest =>
        obtain ⟨c, cs, hcv, hc93⟩ := serJ_head v
        cases rest with
        | nil =>
          have hsv : jsize v ≤ f := by
            simp only [isize] at hsz
            omega
          have hv := ihP v (93 :: r) (notDigitHead_cons (by omega) r) hsv
          rw [hcv, List.cons_append] at hv
          show parseItems (f + 1) (serJ v ++ (93 :: r)) = _
          rw [hcv, List.cons_append]
          simp [parseItems, if_neg hc93, hv]
        | cons w vs2 =>
          have hj1 := jsize_pos v
          have hsv : jsize v ≤ f := by
            simp only [isize] at hsz; omega
          have hsw : isize (w :: vs2) ≤ f := by
            simp only [isize] at hsz ⊢; omega
          have hv := ihP v (44 :: (serItems (w :: vs2) ++ (93 :: r)))
            (notDigitHead_cons (by omega) _) hsv
          have hw := ihR (w :: vs2) r hsw
          rw [hcv, List.cons_append] at hv
          show parseItems (f + 1)
            ((serJ v ++ (44 :: serItems (w :: vs2))) ++ (93 :: r)) = _
          rw [List.append_assoc, List.cons_append, hcv, List.cons_append]
          simp [parseItems, if_neg hc93, hv, hw]

theorem serStrJ_len (k : Str) : 2 ≤ (serStrJ k).length := by
  simp [serStrJ]

mutual

theorem jsize_le_len : ∀ v : JVal, jsize v ≤ 2 * (serJ v).length + 1
  | .jstr s => by simp [jsize]
  | .jnum n => by simp [jsize]
  | .jobj ms => by
    have h := msize_le_len ms
    simp only [jsize, serJ, List.length_cons, List.length_append,
      List.length_singleton]
    omega
  | .jarr vs => by
    have h := isize_le_len vs
    simp only [jsize, serJ, List.length_cons, List.length_append,
      List.length_singleton]
    omega

theorem msize_le_len : ∀ ms : List (Str × JVal),
    msize ms ≤ 2 * (serMembers ms).length + 2
  | [] => by simp [msize]
  | [(k, v)] => by
    have h := jsize_le_len v
    have hk := serStrJ_len k
    simp only [msize, serMembers, List.length_append, List.length_cons]
    omega
  | (k, v) :: (k2, v2) :: ms2 => by
    have h := jsize_le_len v
    have h2 := msize_le_len ((k2, v2) :: ms2)
    have hk := serStrJ_len k
    simp only [msize, serMembers, List.length_append, List.length_cons]
    simp only [msize] at h2 ⊢
    omega

theorem isize_le_len : ∀ vs : List JVal, isize vs ≤ 2 * (serItems vs).length + 3
  | [] => by simp [isize]
  | [v] => by
    have h := jsize_le_len v
    simp only [isize, serItems]
    omega
  | v :: w :: vs2 => by
    have h := jsize_le_len v
    have h2 := isize_le_len (w :: vs2)
    simp only [isize, serItems, List.length_append, List.length_cons]
    simp only [isize] at h2 ⊢
    omega

end

/-- `JSON.parse` inverts `JSON.stringify` on the modelled fragment. -/
theorem parseJson_serJ (v : JVal) : parseJson (serJ v) = some v := by
  have h := (parse_ser (2 * (serJ v).length + 2)).1 v [] notDigitHead_nil
    (le_trans (jsize_le_len v) (by omega))
  rw [List.append_nil] at h
  simp [parseJson, h]

/-!
## Token codec (`src/utils/jwt.js`)

`Date.now()` is made an explicit `now : Int` parameter, `getJti()`'s
randomness an explicit `jti : Str` parameter, and keyed HMAC-SHA256 an
explicit `hmac : Str → Str` parameter (the verifier recomputes the same
function, so no property of it is needed).  A field read `token.f` on the
parsed claims object is modelled by `jGet`/`jGetNum`; `JSON.parse` keeps the
last occurrence of a duplicated key, as JS does.
-/

/-- JS object property lookup on a parsed JSON object (last key wins). -/
def lookupLast (k : Str) : List (Str × JVal) → Option JVal
  | [] => none
  | (k2, v) :: t =>
    match lookupLast k t with
    | some r => some r
    | none => if k2 = k then some v else none

/-- `obj.k` on a parsed JSON value (absent on non-objects). -/
def jGet (v : JVal) (k : Str) : Option JVal :=
  match v with
  | .jobj ms => lookupLast k ms
  | _ => none

/-- `obj.k` as a number: `some n` iff present with a numeric value. -/
def jGetNum (v : JVal) (k : Str) : Option Int :=
  match jGet v k with
  | some (.jnum n) => some n
  | _ => none

/-- `obj.k` as a string (empty for absent/non-string, which the engine only
hits outside the generated-token space). -/
def jGetStr (v : JVal) (k : Str) : Str :=
  match jGet v k with
  | some (.jstr s) => s
  | _ => []

/-- JS truthiness of a possibly-absent numeric field: `undefined` and `0`
are falsy. -/
def truthyNum (o : Option Int) : Prop := o.getD 0 ≠ 0

instance (o : Option Int) : Decidable (truthyNum o) := by
  unfold truthyNum
  infer_instance

/-- JS `(a + b) < c` when `a` or `b` may be `undefined`: an absent operand
makes the sum `NaN`, and every comparison with `NaN` is false. -/
def optAddLt (a b : Option Int) (c : Int) : Prop :=
  match a, b with
  | some x, some y => x + y < c
  | _, _ => False

/-- JS `(a + b) > c` with the same `NaN` convention. -/
def optAddGt (a b : Option Int) (c : Int) : Prop :=
  match a, b with
  | some x, some y => x + y > c
  | _, _ => False

instance (a b : Option Int) (c : Int) : Decidable (optAddLt a b c) := by
  unfold optAddLt
  rcases a with _ | x <;> rcases b with _ | y <;> simp <;> infer_instance

instance (a b : Option Int) (c : Int) : Decidable (optAddGt a b c) := by
  unfold optAddGt
  rcases a with _ | x <;> rcases b with _ | y <;> simp <;> infer_instance

/-- The claims object built by `issueToken` (`iat`/`exp`) and, for arbitrary
well-typed tokens presented to `verifyToken`, optional `nbf`. -/
structure TokenClaims where
  iss : Str
  sub : Str
  iat : Option Int
  exp : Option Int
  nbf : Option Int
  jti : Str
  payload : Str

/-- Optional numeric member of the serialized claims object. -/
def optMember (k : Str) : Option Int → List (Str × JVal)
  | some n => [(k, .jnum n)]
  | none => []

/-- Member list of the claims object, in `issueToken`'s insertion order. -/
def claimsMembers (c : TokenClaims) : List (Str × JVal) :=
  [(strBytes "iss", .jstr c.iss), (strBytes "sub", .jstr c.sub)] ++
    optMember (strBytes "iat") c.iat ++ optMember (strBytes "exp") c.exp ++
    [(strBytes "jti", .jstr c.jti)] ++ optMember (strBytes "nbf") c.nbf ++
    [(strBytes "payload", .jstr c.payload)]

/-- The claims object as a JSON value. -/
def claimsJV (c : TokenClaims) : JVal := .jobj (claimsMembers c)

/-- `Jwt.header` (`{"alg":"HS256","typ":"JWT"}`) as a JSON value. -/
def jwtHeaderVal : JVal :=
  .jobj [(strBytes "alg", .jstr (strBytes "HS256")),
    (strBytes "typ", .jstr (strBytes "JWT"))]

/-- `JSON.stringify(Jwt.header)`. -/
def jwtHeaderBytes : Str := serJ jwtHeaderVal

/-- `Jwt.signature`: base64url of the raw keyed HMAC-SHA256 digest (the
source's base64-then-decode-then-base64url dance nets out to this). -/
def signature (hmac : Str → Str) (input : Str) : Str := b64enc (hmac input)

/-- Assemble `base64url(header) . base64url(claims) . signature`. -/
def signedToken (hmac : Str → Str) (claimsBytes : Str) : Str :=
  b64enc jwtHeaderBytes ++ 46 ::
    (b64enc claimsBytes ++ 46 ::
      signature hmac (b64enc jwtHeaderBytes ++ 46 :: b64enc claimsBytes))

/-- A token whose claims are an arbitrary well-typed claims object. -/
def mkToken (hmac : Str → Str) (c : TokenClaims) : Str :=
  signedToken hmac (serJ (claimsJV c))

/-- `Jwt.issueToken(iss, sub, payload, time)`: rejects a falsy (empty)
payload, else signs claims `{iss, sub, iat: now, exp: time, jti, payload}`.
Note `exp` stores the raw duration, not `now + time`. -/
def issueToken (hmac : Str → Str) (iss sub payload : Str) (time : Int)
    (now : Int) (jti : Str) : Option Str :=
  if payload = [] then none
  else some (mkToken hmac
    { iss := iss, sub := sub, iat := some now, exp := some time, nbf := none,
      jti := jti, payload := payload })

/-- `Jwt.verifyToken(str)`, at explicit current time `now`: three-segment
split, header decode and `alg` check, signature comparison, claims decode,
then the three time checks (note the `&&` short-circuits: falsy `iat`, `exp`
or `nbf` skip their checks, and `exp`/`nbf` are offsets added to `iat`).
An unknown `alg` value, which makes the source throw inside
`crypto.createHmac`, is modelled as a verification failure. -/
def verifyToken (hmac : Str → Str) (s : Str) (now : Int) : Option JVal :=
  match jsSplit 46 s with
  | [h, c, sg] =>
    match parseJson (b64decode h) with
    | none => none
    | some hv =>
      match jGet hv (strBytes "alg") with
      | some (.jstr a) =>
        if a = strBytes "HS256" then
          if signature hmac (h ++ 46 :: c) = sg then
            match parseJson (b64decode c) with
            | none => none
            | some tv =>
              if truthyNum (jGetNum tv (strBytes "iat")) ∧
                  (jGetNum tv (strBytes "iat")).getD 0 > now then none
              else if truthyNum (jGetNum tv (strBytes "exp")) ∧
                  optAddLt (jGetNum tv (strBytes "iat"))
                    (jGetNum tv (strBytes "exp")) now then none
              else if truthyNum (jGetNum tv (strBytes "nbf")) ∧
                  optAddGt (jGetNum tv (strBytes "iat"))
                    (jGetNum tv (strBytes "nbf")) now then none
              else some tv
          else none
        else none
      | _ => none
  | _ => none

theorem sb_iss : strBytes "iss" = [105, 115, 115] := rfl

theorem sb_sub : strBytes "sub" = [115, 117, 98] := rfl

theorem sb_iat : strBytes "iat" = [105, 97, 116] := rfl

theorem sb_exp : strBytes "exp" = [101, 120, 112] := rfl

theorem sb_jti : strBytes "jti" = [106, 116, 105] := rfl

theorem sb_nbf : strBytes "nbf" = [110, 98, 102] := rfl

theorem sb_payload : strBytes "payload" = [112, 97, 121, 108, 111, 97, 100] := rfl

theorem allBytes_nil : AllBytes [] := by
  intro b hb
  cases hb

theorem allBytes_cons {c : Nat} {s : Str} (hc : c < 256) (hs : AllBytes s) :
    AllBytes (c :: s) := by
  intro b hb
  rcases List.mem_cons.mp hb with h | h
  · omega
  · exact hs b h

theorem allBytes_append {a b : Str} (ha : AllBytes a) (hb : AllBytes b) :
    AllBytes (a ++ b) := by
  intro x hx
  rcases List.mem_append.mp hx with h | h
  · exact ha x h
  · exact hb x h

theorem escapeStr_bytes {s : Str} (h : AllBytes s) : AllBytes (escapeStr s) := by
  intro b hb
  simp only [escapeStr, List.mem_flatMap] at hb
  obtain ⟨x, hx, hbx⟩ := hb
  have := h x hx
  split at hbx <;> simp at hbx <;> omega

theorem serStrJ_bytes {s : Str} (h : AllBytes s) : AllBytes (serStrJ s) := by
  exact allBytes_cons (by omega)
    (allBytes_append (escapeStr_bytes h) (allBytes_cons (by omega) allBytes_nil))

theorem serNat_bytes (n : Nat) : AllBytes (serNat n) := by
  intro b hb
  have := serNat_all_digits n b hb
  omega

theorem serInt_bytes (n : Int) : AllBytes (serInt n) := by
  cases n with
  | ofNat m => exact serNat_bytes m
  | negSucc m => exact allBytes_cons (by omega) (serNat_bytes (m + 1))

/-- A flat object member: byte-valid key, string or numeric value. -/
def FlatMember : (Str × JVal) → Prop
  | (k, .jstr s) => AllBytes k ∧ AllBytes s
  | (k, .jnum _) => AllBytes k
  | _ => False

theorem flatMember_bytes : ∀ k v, FlatMember (k, v) →
    AllBytes k ∧ AllBytes (serJ v) := by
  intro k v h
  cases v with
  | jstr s => exact ⟨h.1, serStrJ_bytes h.2⟩
  | jnum n => exact ⟨h, serInt_bytes n⟩
  | jobj ms => exact absurd h id
  | jarr vs => exact absurd h id

theorem serMembers_bytes : ∀ ms : List (Str × JVal),
    (∀ m ∈ ms, FlatMember m) → AllBytes (serMembers ms)
  | [] => by
    intro _
    exact allBytes_nil
  | [(k, v)] => by
    intro h
    obtain ⟨hk, hv⟩ := flatMember_bytes k v (h _ (by simp))
    exact allBytes_append (serStrJ_bytes hk) (allBytes_cons (by omega) hv)
  | (k, v) :: (k2, v2) :: t => by
    intro h
    obtain ⟨hk, hv⟩ := flatMember_bytes k v (h _ (by simp))
    have ht := serMembers_bytes ((k2, v2) :: t) (fun m hm => h m (by simp [hm]))
    exact allBytes_append
      (allBytes_append (serStrJ_bytes hk) (allBytes_cons (by omega) hv))
      (allBytes_cons (by omega) ht)

/-- Byte-validity of the four string fields of a claims object. -/
def ClaimsBytes (c : TokenClaims) : Prop :=
  AllBytes c.iss ∧ AllBytes c.sub ∧ AllBytes c.jti ∧ AllBytes c.payload

theorem claimsMembers_flat (c : TokenClaims) (h : ClaimsBytes c) :
    ∀ m ∈ claimsMembers c, FlatMember m := by
  obtain ⟨h1, h2, h3, h4⟩ := h
  intro m hm
  rcases c with ⟨iss, sub, iat, exp, nbf, jti, payload⟩
  rcases iat with _ | a <;> rcases exp with _ | e <;> rcases nbf with _ | n <;>
    simp only [claimsMembers, optMember, List.append_assoc, List.cons_append,
      List.nil_append, List.mem_cons, List.mem_append, List.not_mem_nil,
      or_false, List.mem_singleton] at hm <;>
    rcases hm with rfl | rfl | rfl | rfl | rfl | rfl | rfl | rfl <;>
    first
      | exact ⟨by decide, h1⟩
      | exact ⟨by decide, h2⟩
      | exact ⟨by decide, h3⟩
      | exact ⟨by decide, h4⟩
      | exact (by decide : AllBytes [105, 97, 116])
      | exact (by decide : AllBytes [101, 120, 112])
      | exact (by decide : AllBytes [110, 98, 102])

theorem claims_ser_bytes (c : TokenClaims) (h : ClaimsBytes c) :
    AllBytes (serJ (claimsJV c)) := by
  show AllBytes (123 :: (serMembers (claimsMembers c) ++ [125]))
  exact allBytes_cons (by omega)
    (allBytes_append (serMembers_bytes _ (claimsMembers_flat c h))
      (allBytes_cons (by omega) allBytes_nil))

theorem jGetNum_claims_iat (c : TokenClaims) :
    jGetNum (claimsJV c) (strBytes "iat") = c.iat := by
  rcases c with ⟨iss, sub, iat, exp, nbf, jti, payload⟩
  rcases iat with _ | a <;> rcases exp with _ | e <;> rcases nbf with _ | n <;>
    simp [claimsJV, claimsMembers, optMember, jGet, jGetNum, lookupLast,
      sb_iss, sb_sub, sb_iat, sb_exp, sb_jti, sb_nbf, sb_payload]

theorem jGetNum_claims_exp (c : TokenClaims) :
    jGetNum (claimsJV c) (strBytes "exp") = c.exp := by
  rcases c with ⟨iss, sub, iat, exp, nbf, jti, payload⟩
  rcases iat with _ | a <;> rcases exp with _ | e <;> rcases nbf with _ | n <;>
    simp [claimsJV, claimsMembers, optMember, jGet, jGetNum, lookupLast,
      sb_iss, sb_sub, sb_iat, sb_exp, sb_jti, sb_nbf, sb_payload]

theorem jGetNum_claims_nbf (c : TokenClaims) :
    jGetNum (claimsJV c) (strBytes "nbf") = c.nbf := by
  rcases c with ⟨iss, sub, iat, exp, nbf, jti, payload⟩
  rcases iat with _ | a <;> rcases exp with _ | e <;> rcases nbf with _ | n <;>
    simp [claimsJV, claimsMembers, optMember, jGet, jGetNum, lookupLast,
      sb_iss, sb_sub, sb_iat, sb_exp, sb_jti, sb_nbf, sb_payload]

theorem jGet_claims_iss (c : TokenClaims) :
    jGet (claimsJV c) (strBytes "iss") = some (.jstr c.iss) := by
  rcases c with ⟨iss, sub, iat, exp, nbf, jti, payload⟩
  rcases iat with _ | a <;> rcases exp with _ | e <;> rcases nbf with _ | n <;>
    simp [claimsJV, claimsMembers, optMember, jGet, lookupLast,
      sb_iss, sb_sub, sb_iat, sb_exp, sb_jti, sb_nbf, sb_payload]

theorem jGet_claims_sub (c : TokenClaims) :
    jGet (claimsJV c) (strBytes "sub") = some (.jstr c.sub) := by
  rcases c with ⟨iss, sub, iat, exp, nbf, jti, payload⟩
  rcases iat with _ | a <;> rcases exp with _ | e <;> rcases nbf with _ | n <;>
    simp [claimsJV, claimsMembers, optMember, jGet, lookupLast,
      sb_iss, sb_sub, sb_iat, sb_exp, sb_jti, sb_nbf, sb_payload]

theorem jGet_claims_payload (c : TokenClaims) :
    jGet (claimsJV c) (strBytes "payload") = some (.jstr c.payload) := by
  rcases c with ⟨iss, sub, iat, exp, nbf, jti, payload⟩
  rcases iat with _ | a <;> rcases exp with _ | e <;> rcases nbf with _ | n <;>
    simp [claimsJV, claimsMembers, optMember, jGet, lookupLast,
      sb_iss, sb_sub, sb_iat, sb_exp, sb_jti, sb_nbf, sb_payload]

/-- Header `alg` lookup on the fixed header. -/
theorem jGet_header_alg :
    jGet jwtHeaderVal (strBytes "alg") = some (.jstr (strBytes "HS256")) := rfl

/-- Evaluation of `verifyToken` on an assembled token: header, signature and
claims decoding always succeed, leaving exactly the three time checks of the
source. -/
theorem verifyToken_mkToken (hmac : Str → Str) (c : TokenClaims) (now : Int)
    (hb : ClaimsBytes c) :
    verifyToken hmac (mkToken hmac c) now =
      if truthyNum c.iat ∧ c.iat.getD 0 > now then none
      else if truthyNum c.exp ∧ optAddLt c.iat c.exp now then none
      else if truthyNum c.nbf ∧ optAddGt c.iat c.nbf now then none
      else some (claimsJV c) := by
  have hsplit : jsSplit 46 (mkToken hmac c) =
      [b64enc jwtHeaderBytes, b64enc (serJ (claimsJV c)),
        signature hmac (b64enc jwtHeaderBytes ++ 46 :: b64enc (serJ (claimsJV c)))] := by
    exact jsSplit_three 46 _ _ _ (b64enc_not_mem_dot _) (b64enc_not_mem_dot _)
      (b64enc_not_mem_dot _)
  have hhdr : b64decode (b64enc jwtHeaderBytes) = jwtHeaderBytes :=
    b64decode_b64enc _ (by decide)
  have hhdrp : parseJson jwtHeaderBytes = some jwtHeaderVal :=
    parseJson_serJ jwtHeaderVal
  have hcl : b64decode (b64enc (serJ (claimsJV c))) = serJ (claimsJV c) :=
    b64decode_b64enc _ (claims_ser_bytes c hb)
  have hclp : parseJson (serJ (claimsJV c)) = some (claimsJV c) :=
    parseJson_serJ (claimsJV c)
  simp only [verifyToken, hsplit, hhdr, hhdrp, hcl, hclp, jGet_header_alg,
    if_pos rfl, jGetNum_claims_iat, jGetNum_claims_exp, jGetNum_claims_nbf]
  simp

/-- C1: Token codec round-trip.  For every issuer, subject, non-empty
payload and validity duration (with byte-valid strings, so the claims decode
correctly), verifying the issued token at any time `vt` with
`now ≤ vt ≤ now + time` succeeds and the returned claims object carries the
supplied `payload`, `sub` and `iss`. -/
theorem token_roundtrip (hmac : Str → Str) (iss sub payload jti : Str)
    (time now vt : Int) (tok : Str)
    (hiss : AllBytes iss) (hsub : AllBytes sub) (hpay : AllBytes payload)
    (hjti : AllBytes jti) (hne : payload ≠ [])
    (hissue : issueToken hmac iss sub payload time now jti = some tok)
    (h1 : now ≤ vt) (h2 : vt ≤ now + time) :
    verifyToken hmac tok vt =
      some (claimsJV ⟨iss, sub, some now, some time, none, jti, payload⟩) ∧
    jGet (claimsJV ⟨iss, sub, some now, some time, none, jti, payload⟩)
      (strBytes "payload") = some (.jstr payload) ∧
    jGet (claimsJV ⟨iss, sub, some now, some time, none, jti, payload⟩)
      (strBytes "sub") = some (.jstr sub) ∧
    jGet (claimsJV ⟨iss, sub, some now, some time, none, jti, payload⟩)
      (strBytes "iss") = some (.jstr iss) := by
  simp only [issueToken, if_neg hne, Option.some.injEq] at hissue
  subst hissue
  refine ⟨?_, jGet_claims_payload _, jGet_claims_sub _, jGet_claims_iss _⟩
  rw [verifyToken_mkToken hmac _ vt ⟨hiss, hsub, hjti, hpay⟩]
  have hA : ¬(truthyNum (some now) ∧ (some now).getD 0 > vt) := by
    rintro ⟨-, hgt⟩
    simp only [Option.getD_some] at hgt
    omega
  have hB : ¬(truthyNum (some time) ∧ optAddLt (some now) (some time) vt) := by
    rintro ⟨-, hlt⟩
    simp only [optAddLt] at hlt
    omega
  rw [if_neg hA, if_neg hB, if_neg ?_]
  rintro ⟨ht, -⟩
  simp [truthyNum] at ht

/-- Witness for C1 at a concrete instance. -/
theorem token_roundtrip_witness :
    verifyToken (fun s => s)
      ((issueToken (fun s => s) (strBytes "i") (strBytes "s") (strBytes "p")
        10 1 (strBytes "j")).getD []) 5 =
      some (claimsJV ⟨strBytes "i", strBytes "s", some 1, some 10, none,
        strBytes "j", strBytes "p"⟩) ∧
    jGet (claimsJV ⟨strBytes "i", strBytes "s", some 1, some 10, none,
      strBytes "j", strBytes "p"⟩) (strBytes "payload") =
      some (.jstr (strBytes "p")) ∧
    jGet (claimsJV ⟨strBytes "i", strBytes "s", some 1, some 10, none,
      strBytes "j", strBytes "p"⟩) (strBytes "sub") =
      some (.jstr (strBytes "s")) ∧
    jGet (claimsJV ⟨strBytes "i", strBytes "s", some 1, some 10, none,
      strBytes "j", strBytes "p"⟩) (strBytes "iss") =
      some (.jstr (strBytes "i")) :=
  token_roundtrip (fun s => s) (strBytes "i") (strBytes "s") (strBytes "p")
    (strBytes "j") 10 1 5 _ (by decide) (by decide) (by decide) (by decide)
    (by decide) rfl (by norm_num) (by norm_num)

/-- A token issued with `validitySeconds = 0`: its claims carry `iat = 1`
and `exp = 0`. -/
def tokExpZero : Str :=
  (issueToken (fun s => s) (strBytes "i") (strBytes "s") (strBytes "p")
    0 1 (strBytes "j")).getD []

/-- Counterexample to C2 as stated: this token's claims carry the integers
`iat = 1` and `exp = 0`, and `iat + exp = 1 < 100`, yet verification at time
100 succeeds — JS truthiness skips the expiry check when `exp` is `0`, so
`verifyToken` does not fail whenever `iat + exp` is below the current time. -/
theorem expiry_check_counterexample :
    (1 : Int) + 0 < 100 ∧
    verifyToken (fun s => s) tokExpZero 100 =
      some (claimsJV ⟨strBytes "i", strBytes "s", some 1, some 0, none,
        strBytes "j", strBytes "p"⟩) := by
  constructor
  · norm_num
  · set_option maxRecDepth 10000 in rfl

/-- C2 (amended): expiry is a duration relative to `iat`.  For every token
whose claims carry integers `iat` and a *nonzero* `exp` (a zero `exp` is
falsy in JS and skips the check), verification fails whenever
`iat + exp < now`; in particular a token issued with `validitySeconds = -1`
fails verification at every time at or after issuance — the expiry moment is
`iat + validitySeconds`, not a fixed wall-clock time. -/
theorem expiry_relative_to_iat :
    (∀ (hmac : Str → Str) (c : TokenClaims) (a e now : Int), ClaimsBytes c →
      c.iat = some a → c.exp = some e → e ≠ 0 → a + e < now →
      verifyToken hmac (mkToken hmac c) now = none) ∧
    (∀ (hmac : Str → Str) (iss sub payload jti tok : Str) (now vt : Int),
      AllBytes iss → AllBytes sub → AllBytes payload → AllBytes jti →
      issueToken hmac iss sub payload (-1) now jti = some tok →
      now ≤ vt → verifyToken hmac tok vt = none) := by
  have main : ∀ (hmac : Str → Str) (c : TokenClaims) (a e now : Int),
      ClaimsBytes c → c.iat = some a → c.exp = some e → e ≠ 0 → a + e < now →
      verifyToken hmac (mkToken hmac c) now = none := by
    intro hmac c a e now hb hiat hexp hne hlt
    rw [verifyToken_mkToken hmac c now hb, hiat, hexp]
    by_cases h1 : truthyNum (some a) ∧ (some a).getD 0 > now
    · rw [if_pos h1]
    · rw [if_neg h1, if_pos ?_]
      refine ⟨?_, ?_⟩
      · simp [truthyNum, hne]
      · simp only [optAddLt]
        omega
  refine ⟨main, ?_⟩
  intro hmac iss sub payload jti tok now vt hiss hsub hpay hjti hissue hle
  by_cases hne : payload = []
  · simp [issueToken, hne] at hissue
  · simp only [issueToken, if_neg hne, Option.some.injEq] at hissue
    subst hissue
    exact main hmac _ now (-1) vt ⟨hiss, hsub, hjti, hpay⟩ rfl rfl
      (by norm_num) (by omega)

/-- Witness for C2 (amended): a token issued with `validitySeconds = -1`
fails verification at its own issuance instant. -/
theorem expiry_relative_to_iat_witness :
    verifyToken (fun s => s)
      ((issueToken (fun s => s) (strBytes "i") (strBytes "s") (strBytes "p")
        (-1) 1 (strBytes "j")).getD []) 1 = none :=
  expiry_relative_to_iat.2 (fun s => s) (strBytes "i") (strBytes "s")
    (strBytes "p") (strBytes "j") _ 1 1 (by decide) (by decide) (by decide)
    (by decide) rfl (by norm_num)

/-- A validly signed, well-formed token whose claims have no `exp` but carry
`nbf = 1000` (with `iat = 1`). -/
def tokNbf : Str :=
  mkToken (fun s => s)
    ⟨strBytes "i", strBytes "s", some 1, none, some 1000, strBytes "j",
      strBytes "p"⟩

/-- Counterexample to C9 as stated: this token has a valid signature and
format, its decoded claims have no `exp` and `iat = 1 ≤ 500`, yet
verification at time 500 fails — the `nbf` check still applies, so such a
token is not accepted at *every* verification time. -/
theorem no_expiry_claim_counterexample :
    jGetNum (claimsJV ⟨strBytes "i", strBytes "s", some 1, none, some 1000,
      strBytes "j", strBytes "p"⟩) (strBytes "exp") = none ∧
    (1 : Int) ≤ 500 ∧
    verifyToken (fun s => s) tokNbf 500 = none := by
  refine ⟨rfl, by norm_num, ?_⟩
  set_option maxRecDepth 10000 in rfl

/-- C9 (amended): no expiry enforcement when `exp` is falsy.  For every
validly signed token whose decoded claims have `exp` equal to `0` or absent,
whose `iat` does not put issuance in the future, and whose `nbf` check does
not reject (absent/zero `nbf`, or `iat + nbf ≤ now`), `verifyToken` returns
the claims object — the expiry check is skipped entirely, so such a token
never expires. -/
theorem no_expiry_when_exp_falsy (hmac : Str → Str) (c : TokenClaims)
    (now : Int) (hb : ClaimsBytes c)
    (hexp : c.exp = none ∨ c.exp = some 0)
    (hiat : ¬(truthyNum c.iat ∧ c.iat.getD 0 > now))
    (hnbf : ¬(truthyNum c.nbf ∧ optAddGt c.iat c.nbf now)) :
    verifyToken hmac (mkToken hmac c) now = some (claimsJV c) := by
  rw [verifyToken_mkToken hmac c now hb, if_neg hiat, if_neg ?_, if_neg hnbf]
  rintro ⟨ht, -⟩
  rcases hexp with h | h <;> simp [h, truthyNum] at ht

/-- Witness for C9 (amended) at a far-future verification time. -/
theorem no_expiry_when_exp_falsy_witness :
    verifyToken (fun s => s)
      (mkToken (fun s => s) ⟨strBytes "i", strBytes "s", some 1, none, none,
        strBytes "j", strBytes "p"⟩) 1000000000 =
      some (claimsJV ⟨strBytes "i", strBytes "s", some 1, none, none,
        strBytes "j", strBytes "p"⟩) :=
  no_expiry_when_exp_falsy (fun s => s) _ 1000000000
    ⟨by decide, by decide, by decide, by decide⟩
    (Or.inl rfl) (by simp [truthyNum]) (by simp [truthyNum, optAddGt])

/-!
## Auth middleware (`src/middleware/auth.js`) and logout
(`src/controllers/authController.js`)
-/

/-- Result of the `tokenCheck` middleware: 401 or an authenticated request
with the resolved subject attached. -/
inductive AuthResult where
  | unauth
  | ok (sub : Str)
deriving DecidableEq

/-- First-match association-list lookup (Redis keys are unique). -/
def lookupAssoc (m : List (Str × Str)) (k : Str) : Option Str :=
  match m with
  | [] => none
  | (k2, v) :: t => if k2 = k then some v else lookupAssoc t k

/-- `AuthMiddleware.tokenCheck`, with the extracted header token, the Redis
session cache (`"user-" + sub ↦ stored token string`) and the current time
explicit: missing token → 401; `Jwt.verifyToken` failure → 401; cache miss
or cached value not strictly equal to the presented token → 401; otherwise
the request proceeds with the resolved subject. -/
def tokenCheck (hmac : Str → Str) (cache : List (Str × Str))
    (tok? : Option Str) (now : Int) : AuthResult :=
  match tok? with
  | none => .unauth
  | some tok =>
    match verifyToken hmac tok now with
    | none => .unauth
    | some decoded =>
      match lookupAssoc cache
        (strBytes "user-" ++ jGetStr decoded (strBytes "sub")) with
      | none => .unauth
      | some cached =>
        if cached ≠ [] ∧ cached = tok then
          .ok (jGetStr decoded (strBytes "sub"))
        else .unauth

/-- `exports.logout` of `src/controllers/authController.js` (the handler
mounted at `POST /auth/logout`): logs and returns a success response; its
body performs no session-cache operation (the comment in the source says the
Redis token cache should be cleared here, but nothing is deleted). -/
def logout (cache : List (Str × Str)) : List (Str × Str) × Bool :=
  (cache, true)

/-- The session token of the scenario for C3. -/
def aliceToken : Str :=
  (issueToken (fun s => s) (strBytes "i") (strBytes "alice") (strBytes "p")
    100 1 (strBytes "j")).getD []

/-- The session cache holding alice's live session. -/
def aliceCache : List (Str × Str) :=
  [(strBytes "user-" ++ strBytes "alice", aliceToken)]

/-- C3 (failing input): an authenticated user calls logout, which reports
success but leaves the session cache unchanged, so presenting the same old
token afterwards still authenticates (no 401) — the handler does not delete
the user's session cache entry as the spec (and the handler's own comment)
require. -/
theorem logout_keeps_session :
    tokenCheck (fun s => s) aliceCache (some aliceToken) 5 =
      .ok (strBytes "alice") ∧
    logout aliceCache = (aliceCache, true) ∧
    tokenCheck (fun s => s) (logout aliceCache).1 (some aliceToken) 6 =
      .ok (strBytes "alice") := by
  refine ⟨?_, rfl, ?_⟩
  · set_option maxRecDepth 10000 in rfl
  · set_option maxRecDepth 10000 in rfl

/-- SameValueZero comparison (used by `Set` and `includes`) on parsed JSON
values: strings and numbers compare by value; parsed objects and arrays are
fresh references and never compare equal. -/
def sameVal : JVal → JVal → Bool
  | .jstr a, .jstr b => a == b
  | .jnum a, .jnum b => a == b
  | _, _ => false

/-- `[...new Set(xs)]`: first-seen-order deduplication. -/
def setDedup (seen : List JVal) : List JVal → List JVal
  | [] => []
  | x :: t =>
    if seen.any (fun y => sameVal y x) then setDedup seen t
    else x :: setDedup (x :: seen) t

/-- JS truthiness of a parsed JSON value (objects and arrays are truthy,
`""` and `0` are falsy). -/
def jTruthy : JVal → Bool
  | .jstr s => !s.isEmpty
  | .jnum n => n != 0
  | .jobj _ => true
  | .jarr _ => true

/-- Operations contributed by one line of the streamed role listing:
`JSON.parse` the line and, when `tmp.result && tmp.result.operations` is
truthy with an array of operations, spread that array into the accumulator.
A parse failure (or a spread failure on a truthy non-array) lands in the
per-line `catch` and contributes nothing. -/
def opsOfLine (l : Str) : List JVal :=
  match parseJson l with
  | none => []
  | some v =>
    match jGet v (strBytes "result") with
    | none => []
    | some rv =>
      if jTruthy rv then
        match jGet rv (strBytes "operations") with
        | none => []
        | some ov =>
          match ov with
          | .jarr xs => xs
          | _ => []
      else []

/-- The parsing loop of `AuthMiddleware.getUserPermissions`: accumulate each
line's operations, then deduplicate preserving first-seen order. -/
def resolveOps (lines : List Str) : List JVal :=
  setDedup [] (lines.flatMap opsOfLine)

/-- `AuthMiddleware.getUserPermissions` after the upstream fetch: split the
raw response on newlines and resolve. -/
def getUserPermissions (res : Str) : List JVal :=
  resolveOps (jsSplit 10 res)

/-- C4: permission-resolver resilience.  On the three-line input
`'{"result":{"operations":["a","b"]}}' / 'NOT JSON' /
'{"result":{"operations":["b","c"]}}'` the resolver returns exactly
`{a, b, c}` in first-seen order, skipping the malformed line; in general any
line that fails to parse contributes nothing (resolution never aborts), and
an input with zero valid lines yields the empty set. -/
theorem resolver_resilience :
    getUserPermissions (strBytes
        "\x7b\"result\":\x7b\"operations\":[\"a\",\"b\"]\x7d\x7d\nNOT JSON\n\x7b\"result\":\x7b\"operations\":[\"b\",\"c\"]\x7d\x7d") =
      [.jstr (strBytes "a"), .jstr (strBytes "b"), .jstr (strBytes "c")] ∧
    (∀ (pre post : List Str) (bad : Str), parseJson bad = none →
      resolveOps (pre ++ bad :: post) = resolveOps (pre ++ post)) ∧
    (∀ lines : List Str, (∀ l ∈ lines, parseJson l = none) →
      resolveOps lines = []) := by
  have hnil : ∀ ls : List Str, (∀ l ∈ ls, parseJson l = none) →
      ls.flatMap opsOfLine = [] := by
    intro ls
    induction ls with
    | nil => intro _; rfl
    | cons l t ih =>
      intro h
      have h1 : opsOfLine l = [] := by simp [opsOfLine, h l (by simp)]
      have h2 := ih (fun x hx => h x (by simp [hx]))
      simp [h1, h2]
  refine ⟨?_, ?_, ?_⟩
  · set_option maxRecDepth 40000 in rfl
  · intro pre post bad hbad
    have hline : opsOfLine bad = [] := by simp [opsOfLine, hbad]
    simp [resolveOps, hline]
  · intro lines hall
    rw [resolveOps, hnil lines hall]
    rfl

/-- Witness for C4's general clauses at concrete inputs. -/
theorem resolver_resilience_witness :
    resolveOps ([strBytes "7"] ++ strBytes "NOT JSON" :: [strBytes "8"]) =
      resolveOps ([strBytes "7"] ++ [strBytes "8"]) ∧
    resolveOps [strBytes "NOT JSON"] = [] :=
  ⟨resolver_resilience.2.1 [strBytes "7"] [strBytes "8"] (strBytes "NOT JSON")
      rfl,
    resolver_resilience.2.2 [strBytes "NOT JSON"] (by
      intro l hl
      rw [List.mem_singleton] at hl
      subst hl
      rfl)⟩

/-- Result of the `requirePermissions` middleware. -/
inductive GateResult where
  | unauthenticated
  | pass
  | forbidden
deriving DecidableEq

/-- `AuthMiddleware.requirePermissions(required)`, with the presence of
`req.user` and the user's resolved permission list explicit: no user → 401;
empty requirement → pass; otherwise pass iff *some* required operation is
included in the resolved list (OR semantics), else 403.  (The 500 path for
thrown exceptions is outside the model.) -/
def requirePermissions (required : List Str) (user : Option Str)
    (userPerms : List JVal) : GateResult :=
  match user with
  | none => .unauthenticated
  | some _ =>
    if required.isEmpty then .pass
    else if required.any (fun p => userPerms.any (fun o => sameVal o (.jstr p)))
      then .pass
    else .forbidden

/-- Counterexample to C5 as stated: with an empty required-operations list
but no authenticated user, `requirePermissions` responds 401, not a pass —
the `!req.user` check precedes the empty-list short-circuit, so the empty
list does not pass *unconditionally*. -/
theorem authorize_empty_unauth_counterexample :
    requirePermissions [] none [] = .unauthenticated ∧
    ¬ requirePermissions [] none [] = .pass := by
  constructor
  · rfl
  · intro h
    cases h

/-- C5 (amended): authorization OR semantics.  For authenticated requests an
empty required list passes unconditionally; an unauthenticated request gets
401 regardless of the list; for a non-empty list an authenticated request is
rejected 403 exactly when none of the required operations is in the resolved
set; in particular a user holding only `read` passes
`requirePermissions(["read","write"])` but fails
`requirePermissions(["write","delete"])`. -/
theorem authorize_or_semantics :
    (∀ (u : Str) (perms : List JVal),
      requirePermissions [] (some u) perms = .pass) ∧
    (∀ (required : List Str) (perms : List JVal),
      requirePermissions required none perms = .unauthenticated) ∧
    (∀ (required : List Str) (u : Str) (perms : List JVal), required ≠ [] →
      (requirePermissions required (some u) perms = .forbidden ↔
        ∀ p ∈ required, perms.any (fun o => sameVal o (.jstr p)) = false)) ∧
    requirePermissions [strBytes "read", strBytes "write"]
      (some (strBytes "u")) [.jstr (strBytes "read")] = .pass ∧
    requirePermissions [strBytes "write", strBytes "delete"]
      (some (strBytes "u")) [.jstr (strBytes "read")] = .forbidden := by
  refine ⟨fun u perms => rfl, fun required perms => rfl, ?_, ?_, ?_⟩
  · intro required u perms hne
    have hemp : required.isEmpty = false := by
      cases required with
      | nil => exact absurd rfl hne
      | cons a t => rfl
    simp only [requirePermissions, hemp, Bool.false_eq_true, if_false]
    by_cases hany :
        required.any (fun p => perms.any (fun o => sameVal o (.jstr p))) = true
    · rw [if_pos hany]
      constructor
      · intro h
        cases h
      · intro h
        rw [List.any_eq_true] at hany
        obtain ⟨p, hp, hpp⟩ := hany
        rw [h p hp] at hpp
        cases hpp
    · rw [if_neg hany]
      simp only [List.any_eq_true] at hany
      constructor
      · intro _ p hp
        rcases hb : perms.any (fun o => sameVal o (.jstr p)) with _ | _
        · rfl
        · rw [List.any_eq_true] at hb
          exact absurd ⟨p, hp, hb⟩ hany
      · intro _
        rfl
  · set_option maxRecDepth 4000 in rfl
  · set_option maxRecDepth 4000 in rfl

/-- Witness for C5 (amended) at a concrete non-empty requirement. -/
theorem authorize_or_semantics_witness :
    requirePermissions [strBytes "write"] (some (strBytes "u"))
      [.jstr (strBytes "read")] = .forbidden ↔
    ∀ p ∈ [strBytes "write"],
      ([JVal.jstr (strBytes "read")].any fun o => sameVal o (.jstr p)) = false :=
  authorize_or_semantics.2.2.1 [strBytes "write"] (strBytes "u")
    [.jstr (strBytes "read")] (by simp)

/-!
## Menu builder (`toMenu` of `src/controllers/account.controller.js`)
-/

/-- One permission-sheet entry (`OperationDescriptor`): absent JS properties
are `none`. -/
structure OperationDesc where
  key : Str
  name : Option Str
  path : Option Str
  icon : Option Str
  order : Option Int
  parent : Option Str
  app : Bool

/-- A menu node; children are further nodes. -/
inductive MenuItem where
  | mk (key name path icon : Str) (order : Int) (parent : Option Str)
      (children : List MenuItem)

def MenuItem.key : MenuItem → Str
  | .mk k _ _ _ _ _ _ => k

def MenuItem.order : MenuItem → Int
  | .mk _ _ _ _ o _ _ => o

def MenuItem.children : MenuItem → List MenuItem
  | .mk _ _ _ _ _ _ cs => cs

/-- Replace a node's children list. -/
def MenuItem.withChildren : MenuItem → List MenuItem → MenuItem
  | .mk k n p i o pa _, cs => .mk k n p i o pa cs

theorem MenuItem.children_withChildren (m : MenuItem) (cs : List MenuItem) :
    (m.withChildren cs).children = cs := by
  cases m
  rfl

/-- JS `a || b` on an optional string (empty string is falsy). -/
def orElseStr (o : Option Str) (d : Str) : Str :=
  match o with
  | some s => if s = [] then d else s
  | none => d

/-- `operation.parent || null`, and the truthiness test `if (operation.parent)`:
an absent or empty parent key means "no parent". -/
def effParent (o : Option Str) : Option Str :=
  match o with
  | some p => if p = [] then none else some p
  | none => none

/-- The menu item constructed for an allowed descriptor (empty children,
`name` defaulting to `key`, `order` to `0`). -/
def mkMenuItem (d : OperationDesc) : MenuItem :=
  .mk d.key (orElseStr d.name d.key) (orElseStr d.path []) (orElseStr d.icon [])
    (d.order.getD 0) (effParent d.parent) []

/-- The auto-vivified placeholder for a not-yet-present parent key. -/
def placeholderItem (p : Str) : MenuItem := .mk p p [] [] 0 none []

/-- First-match lookup in the working menu map (JS object keys are unique). -/
def mgetMenu (m : List (Str × MenuItem)) (k : Str) : Option MenuItem :=
  match m with
  | [] => none
  | (k2, v) :: t => if k2 = k then some v else mgetMenu t k

/-- `menu[k] = v`: in-place overwrite of an existing key (keeping its
position, as JS object assignment does) or append of a new one. -/
def msetMenu (m : List (Str × MenuItem)) (k : Str) (v : MenuItem) :
    List (Str × MenuItem) :=
  match m with
  | [] => [(k, v)]
  | (k2, v2) :: t => if k2 = k then (k, v) :: t else (k2, v2) :: msetMenu t k v

/-- `menu[k].children.push(it)`. -/
def mpushChild (m : List (Str × MenuItem)) (k : Str) (it : MenuItem) :
    List (Str × MenuItem) :=
  match m with
  | [] => []
  | (k2, v2) :: t =>
    if k2 = k then (k2, v2.withChildren (v2.children ++ [it])) :: t
    else (k2, v2) :: mpushChild t k it

/-- One iteration of `toMenu`'s `forEach` over the sheet operations. -/
def toMenuStep (isApp : Bool) (userOps : List Str)
    (menu : List (Str × MenuItem)) (d : OperationDesc) :
    List (Str × MenuItem) :=
  if userOps.contains d.key = false then menu
  else if isApp = true ∧ d.app = false then menu
  else
    match effParent d.parent with
    | some p =>
      mpushChild
        (match mgetMenu menu p with
          | none => msetMenu menu p (placeholderItem p)
          | some _ => menu)
        p (mkMenuItem d)
    | none => msetMenu menu d.key (mkMenuItem d)

/-- The construction pass of `toMenu` (before sorting). -/
def buildMenu (ops : List OperationDesc) (isApp : Bool) (userOps : List Str) :
    List (Str × MenuItem) :=
  ops.foldl (toMenuStep isApp userOps) []

/-- Stable insertion of a node into a children list sorted by `order`
(equal orders keep the inserted — earlier — node first, matching the stable
JS `Array.prototype.sort` with comparator `(a.order||0)-(b.order||0)`;
`order` is already defaulted at construction). -/
def ordInsert (a : MenuItem) : List MenuItem → List MenuItem
  | [] => [a]
  | b :: t => if a.order ≤ b.order then a :: b :: t else b :: ordInsert a t

/-- Stable sort of a children list by ascending `order`. -/
def sortByOrder : List MenuItem → List MenuItem
  | [] => []
  | a :: t => ordInsert a (sortByOrder t)

/-- `toMenu(sheet, isApp, userOperations)` for a non-null sheet with
operation list `ops`: build the map, then sort every entry's children (a
node's children all have empty children lists themselves, so the one-level
sort of the source coincides with a recursive one). -/
def toMenu (ops : List OperationDesc) (isApp : Bool) (userOps : List Str) :
    List (Str × MenuItem) :=
  (buildMenu ops isApp userOps).map
    (fun e => (e.1, e.2.withChildren (sortByOrder e.2.children)))

theorem mem_ordInsert {x a : MenuItem} :
    ∀ {l : List MenuItem}, x ∈ ordInsert a l → x = a ∨ x ∈ l := by
  intro l
  induction l with
  | nil =>
    intro h
    simp [ordInsert] at h
    exact Or.inl h
  | cons b t ih =>
    intro h
    simp only [ordInsert] at h
    split at h
    · rcases List.mem_cons.mp h with h1 | h1
      · exact Or.inl h1
      · exact Or.inr h1
    · rcases List.mem_cons.mp h with h1 | h1
      · exact Or.inr (by simp [h1])
      · rcases ih h1 with h2 | h2
        · exact Or.inl h2
        · exact Or.inr (by simp [h2])

theorem mem_sortByOrder {x : MenuItem} :
    ∀ {l : List MenuItem}, x ∈ sortByOrder l → x ∈ l := by
  intro l
  induction l with
  | nil => intro h; simp [sortByOrder] at h
  | cons a t ih =>
    intro h
    simp only [sortByOrder] at h
    rcases mem_ordInsert h with h1 | h1
    · simp [h1]
    · exact List.mem_cons_of_mem _ (ih h1)

theorem pairwise_ordInsert {a : MenuItem} :
    ∀ {l : List MenuItem},
      List.Pairwise (fun x y => x.order ≤ y.order) l →
      List.Pairwise (fun x y => x.order ≤ y.order) (ordInsert a l) := by
  intro l
  induction l with
  | nil => intro _; simp [ordInsert]
  | cons b t ih =>
    intro h
    rcases List.pairwise_cons.mp h with ⟨hb, ht⟩
    simp only [ordInsert]
    split
    · refine List.pairwise_cons.mpr ⟨?_, h⟩
      intro y hy
      rcases List.mem_cons.mp hy with h1 | h1
      · subst h1
        assumption
      · exact le_trans (by assumption) (hb y h1)
    · refine List.pairwise_cons.mpr ⟨?_, ih ht⟩
      intro y hy
      rcases mem_ordInsert hy with h1 | h1
      · subst h1
        omega
      · exact hb y h1

/-- The children sort produces a list sorted non-decreasingly by `order`. -/
theorem pairwise_sortByOrder :
    ∀ (l : List MenuItem),
      List.Pairwise (fun x y => x.order ≤ y.order) (sortByOrder l) := by
  intro l
  induction l with
  | nil => simp [sortByOrder]
  | cons a t ih => exact pairwise_ordInsert ih

theorem filter_ordInsert (v : Int) (a : MenuItem) :
    ∀ (l : List MenuItem),
      (ordInsert a l).filter (fun x => x.order == v) =
        if a.order == v then a :: l.filter (fun x => x.order == v)
        else l.filter (fun x => x.order == v) := by
  intro l
  induction l with
  | nil =>
    simp only [ordInsert, List.filter]
    split <;> simp_all
  | cons b t ih =>
    simp only [ordInsert]
    split
    · simp only [List.filter_cons]
    · rename_i hab
      rcases hav : (a.order == v) with _ | _ <;>
        rcases hbv : (b.order == v) with _ | _ <;>
        simp_all [List.filter_cons]

/-- Stability: the sort preserves the relative order of equal-`order` nodes
(the sublist at each order value is unchanged). -/
theorem filter_sortByOrder (v : Int) :
    ∀ (l : List MenuItem),
      (sortByOrder l).filter (fun x => x.order == v) =
        l.filter (fun x => x.order == v) := by
  intro l
  induction l with
  | nil => rfl
  | cons a t ih =>
    simp only [sortByOrder, filter_ordInsert v a (sortByOrder t), ih]
    rcases hav : (a.order == v) with _ | _ <;> simp_all [List.filter_cons]

theorem mgetMenu_map (g : MenuItem → MenuItem) :
    ∀ (m : List (Str × MenuItem)) (k : Str),
      mgetMenu (m.map (fun e => (e.1, g e.2))) k = (mgetMenu m k).map g := by
  intro m
  induction m with
  | nil => intro k; rfl
  | cons e t ih =>
    intro k
    obtain ⟨k2, v⟩ := e
    simp only [List.map_cons, mgetMenu]
    split <;> simp [ih]

theorem mgetMenu_mem :
    ∀ {m : List (Str × MenuItem)} {k : Str} {node : MenuItem},
      mgetMenu m k = some node → (k, node) ∈ m := by
  intro m
  induction m with
  | nil => intro k node h; cases h
  | cons e t ih =>
    intro k node h
    obtain ⟨k2, v⟩ := e
    simp only [mgetMenu] at h
    split at h
    · rename_i he
      obtain rfl : v = node := Option.some.inj h
      subst he
      simp
    · exact List.mem_cons_of_mem _ (ih h)

/-- Every node of the working map has only leaf children (children whose own
children lists are empty). -/
def LeafChildren (m : List (Str × MenuItem)) : Prop :=
  ∀ e ∈ m, ∀ c ∈ e.2.children, c.children = []

theorem leafChildren_mset {m : List (Str × MenuItem)} {k : Str} {v : MenuItem}
    (hm : LeafChildren m) (hv : ∀ c ∈ v.children, c.children = []) :
    LeafChildren (msetMenu m k v) := by
  induction m with
  | nil =>
    intro e he
    simp only [msetMenu, List.mem_singleton] at he
    subst he
    exact hv
  | cons e2 t ih =>
    obtain ⟨k2, v2⟩ := e2
    intro e he
    simp only [msetMenu] at he
    split at he
    · rcases List.mem_cons.mp he with rfl | h2
      · exact hv
      · exact hm e (List.mem_cons_of_mem _ h2)
    · rcases List.mem_cons.mp he with rfl | h2
      · exact hm _ (by simp)
      · exact ih (fun x hx => hm x (List.mem_cons_of_mem _ hx)) e h2

theorem leafChildren_mpush {m : List (Str × MenuItem)} {k : Str}
    {it : MenuItem} (hm : LeafChildren m) (hit : it.children = []) :
    LeafChildren (mpushChild m k it) := by
  induction m with
  | nil => intro e he; cases he
  | cons e2 t ih =>
    obtain ⟨k2, v2⟩ := e2
    intro e he
    simp only [mpushChild] at he
    split at he
    · rcases List.mem_cons.mp he with rfl | h2
      · intro c hc
        simp only [MenuItem.children_withChildren, List.mem_append,
          List.mem_singleton] at hc
        rcases hc with hc | rfl
        · exact hm (k2, v2) (by simp) c hc
        · exact hit
      · exact hm e (List.mem_cons_of_mem _ h2)
    · rcases List.mem_cons.mp he with rfl | h2
      · exact hm _ (by simp)
      · exact ih (fun x hx => hm x (List.mem_cons_of_mem _ hx)) e h2

theorem leafChildren_step (isApp : Bool) (uops : List Str)
    {m : List (Str × MenuItem)} (d : OperationDesc) (hm : LeafChildren m) :
    LeafChildren (toMenuStep isApp uops m d) := by
  unfold toMenuStep
  split
  · exact hm
  · split
    · exact hm
    · split
      · split
        · exact leafChildren_mpush
            (leafChildren_mset hm (by simp [placeholderItem, MenuItem.children]))
            (by simp [mkMenuItem, MenuItem.children])
        · exact leafChildren_mpush hm (by simp [mkMenuItem, MenuItem.children])
      · exact leafChildren_mset hm (by simp [mkMenuItem, MenuItem.children])

theorem leafChildren_build (ops : List OperationDesc) (isApp : Bool)
    (uops : List Str) : LeafChildren (buildMenu ops isApp uops) := by
  unfold buildMenu
  have base : LeafChildren ([] : List (Str × MenuItem)) := by
    intro e he
    cases he
  generalize ([] : List (Str × MenuItem)) = m at base ⊢
  induction ops generalizing m with
  | nil => exact base
  | cons d t ih => exact ih _ (leafChildren_step isApp uops d base)

/-- C6: menu child ordering.  Every node of the map returned by `toMenu` has
its children sorted non-decreasingly by `order` (missing `order` defaulted
to `0` at construction), the sort is stable (for each order value the
sublist of children with that order is exactly as inserted), children are
leaves (so deeper levels are trivially sorted); and for two allowed
descriptors `{key:"x",order:2}` and `{key:"y",order:1}` under a common
parent, the parent's children come out as `[y, x]`. -/
theorem menu_children_sorted :
    (∀ (ops : List OperationDesc) (isApp : Bool) (uops : List Str)
      (k : Str) (node : MenuItem),
      mgetMenu (toMenu ops isApp uops) k = some node →
      List.Pairwise (fun a b => a.order ≤ b.order) node.children ∧
      (∃ raw, mgetMenu (buildMenu ops isApp uops) k = some raw ∧
        node.children = sortByOrder raw.children ∧
        ∀ v : Int, node.children.filter (fun x => x.order == v) =
          raw.children.filter (fun x => x.order == v)) ∧
      (∀ c ∈ node.children, c.children = [])) ∧
    mgetMenu (toMenu
        [⟨strBytes "x", none, none, none, some 2, some (strBytes "par"), false⟩,
          ⟨strBytes "y", none, none, none, some 1, some (strBytes "par"), false⟩]
        false [strBytes "x", strBytes "y"]) (strBytes "par") =
      some (.mk (strBytes "par") (strBytes "par") [] [] 0 none
        [.mk (strBytes "y") (strBytes "y") [] [] 1 (some (strBytes "par")) [],
          .mk (strBytes "x") (strBytes "x") [] [] 2 (some (strBytes "par")) []]) := by
  constructor
  · intro ops isApp uops k node h
    unfold toMenu at h
    rw [mgetMenu_map (fun x => x.withChildren (sortByOrder x.children))
      (buildMenu ops isApp uops) k] at h
    rw [Option.map_eq_some'] at h
    obtain ⟨raw, hraw, rfl⟩ := h
    rw [MenuItem.children_withChildren]
    refine ⟨pairwise_sortByOrder _, ⟨raw, hraw, rfl, fun v => filter_sortByOrder v _⟩, ?_⟩
    intro c hc
    exact leafChildren_build ops isApp uops (k, raw) (mgetMenu_mem hraw) c
      (mem_sortByOrder hc)
  · rfl

/-- Witness for C6's general clause at the concrete two-descriptor sheet. -/
theorem menu_children_sorted_witness :
    List.Pairwise (fun a b => a.order ≤ b.order)
      (MenuItem.mk (strBytes "par") (strBytes "par") [] [] 0 none
        [.mk (strBytes "y") (strBytes "y") [] [] 1 (some (strBytes "par")) [],
          .mk (strBytes "x") (strBytes "x") [] [] 2 (some (strBytes "par")) []]).children ∧
    (∃ raw, mgetMenu (buildMenu
        [⟨strBytes "x", none, none, none, some 2, some (strBytes "par"), false⟩,
          ⟨strBytes "y", none, none, none, some 1, some (strBytes "par"), false⟩]
        false [strBytes "x", strBytes "y"]) (strBytes "par") = some raw ∧
      (MenuItem.mk (strBytes "par") (strBytes "par") [] [] 0 none
        [.mk (strBytes "y") (strBytes "y") [] [] 1 (some (strBytes "par")) [],
          .mk (strBytes "x") (strBytes "x") [] [] 2 (some (strBytes "par")) []]).children =
        sortByOrder raw.children ∧
      ∀ v : Int,
        ((MenuItem.mk (strBytes "par") (strBytes "par") [] [] 0 none
          [.mk (strBytes "y") (strBytes "y") [] [] 1 (some (strBytes "par")) [],
            .mk (strBytes "x") (strBytes "x") [] [] 2 (some (strBytes "par")) []]).children.filter
          (fun x => x.order == v)) =
          raw.children.filter (fun x => x.order == v)) ∧
    (∀ c ∈ (MenuItem.mk (strBytes "par") (strBytes "par") [] [] 0 none
        [.mk (strBytes "y") (strBytes "y") [] [] 1 (some (strBytes "par")) [],
          .mk (strBytes "x") (strBytes "x") [] [] 2 (some (strBytes "par")) []]).children,
      c.children = []) :=
  menu_children_sorted.1
    [⟨strBytes "x", none, none, none, some 2, some (strBytes "par"), false⟩,
      ⟨strBytes "y", none, none, none, some 1, some (strBytes "par"), false⟩]
    false [strBytes "x", strBytes "y"] (strBytes "par") _ rfl

theorem mgetMenu_mset_self :
    ∀ (m : List (Str × MenuItem)) (k : Str) (v : MenuItem),
      mgetMenu (msetMenu m k v) k = some v := by
  intro m
  induction m with
  | nil => intro k v; simp [msetMenu, mgetMenu]
  | cons e t ih =>
    intro k v
    obtain ⟨k2, v2⟩ := e
    simp only [msetMenu]
    split
    · simp [mgetMenu]
    · rename_i hne
      simp [mgetMenu, hne, ih]

theorem isSome_mgetMenu_mset
    {m : List (Str × MenuItem)} {k' : Str} (k : Str) (v : MenuItem)
    (h : (mgetMenu m k').isSome = true) :
    (mgetMenu (msetMenu m k v) k').isSome = true := by
  induction m with
  | nil => simp [mgetMenu] at h
  | cons e t ih =>
    obtain ⟨k2, v2⟩ := e
    simp only [mgetMenu] at h
    simp only [msetMenu]
    split
    · rename_i he
      subst he
      by_cases hk : k2 = k'
      · simp [mgetMenu, hk]
      · simp only [mgetMenu, if_neg hk] at h
        simp [mgetMenu, hk, h]
    · simp only [mgetMenu] at h ⊢
      split at h
      · rename_i hk
        simp [hk]
      · rename_i hk
        simp only [if_neg hk]
        exact ih h

theorem isSome_mgetMenu_mpush
    (m : List (Str × MenuItem)) (k k' : Str) (it : MenuItem) :
    (mgetMenu (mpushChild m k it) k').isSome = (mgetMenu m k').isSome := by
  induction m with
  | nil => rfl
  | cons e t ih =>
    obtain ⟨k2, v2⟩ := e
    simp only [mpushChild]
    split
    · simp only [mgetMenu]
      split <;> simp
    · simp only [mgetMenu]
      split
      · simp
      · exact ih

/-- Once a key is present in the working map, every later `forEach`
iteration keeps it present. -/
theorem toMenuStep_mono (isApp : Bool) (uops : List Str)
    {m : List (Str × MenuItem)} {k : Str} (d : OperationDesc)
    (h : (mgetMenu m k).isSome = true) :
    (mgetMenu (toMenuStep isApp uops m d) k).isSome = true := by
  unfold toMenuStep
  split
  · exact h
  · split
    · exact h
    · split
      · rw [isSome_mgetMenu_mpush]
        split
        · exact isSome_mgetMenu_mset _ _ h
        · exact h
      · exact isSome_mgetMenu_mset _ _ h

/-- Processing an allowed descriptor with a declared parent leaves that
parent key present (auto-vivified if necessary). -/
theorem toMenuStep_parent_present (isApp : Bool) (uops : List Str)
    (m : List (Str × MenuItem)) (d : OperationDesc) (p : Str)
    (huser : uops.contains d.key = true) (happ : isApp = true → d.app = true)
    (hpar : effParent d.parent = some p) :
    (mgetMenu (toMenuStep isApp uops m d) p).isSome = true := by
  unfold toMenuStep
  rw [huser]
  simp only [Bool.true_eq_false, if_false]
  have h2 : ¬(isApp = true ∧ d.app = false) := by
    rintro ⟨ha, hb⟩
    rw [happ ha] at hb
    cases hb
  rw [if_neg h2, hpar]
  rw [isSome_mgetMenu_mpush]
  split
  · rw [mgetMenu_mset_self]
    rfl
  · rename_i v hv
    rw [hv]
    rfl

theorem foldl_toMenuStep_mono (isApp : Bool) (uops : List Str) :
    ∀ (l : List OperationDesc) (m : List (Str × MenuItem)) (k : Str),
      (mgetMenu m k).isSome = true →
      (mgetMenu (l.foldl (toMenuStep isApp uops) m) k).isSome = true := by
  intro l
  induction l with
  | nil => intro m k h; exact h
  | cons d t ih =>
    intro m k h
    exact ih _ k (toMenuStep_mono isApp uops d h)

/-- C7 (amended): an allowed, visible operation whose declared parent key is
never defined as a top-level operation still auto-vivifies a synthetic
parent node, and that placeholder IS stored in — and appears in — the
top-level map returned by the menu builder (keyed by the parent key, with
the orphan children under it); it is not dropped. -/
theorem orphan_parent_in_map (ops : List OperationDesc) (isApp : Bool)
    (uops : List Str) (d : OperationDesc) (p : Str)
    (hmem : d ∈ ops) (huser : uops.contains d.key = true)
    (happ : isApp = true → d.app = true)
    (hpar : effParent d.parent = some p) :
    (mgetMenu (toMenu ops isApp uops) p).isSome = true := by
  obtain ⟨l1, l2, rfl⟩ := List.append_of_mem hmem
  unfold toMenu
  rw [mgetMenu_map (fun x => x.withChildren (sortByOrder x.children))
    (buildMenu (l1 ++ d :: l2) isApp uops) p]
  have hsome : (mgetMenu (buildMenu (l1 ++ d :: l2) isApp uops) p).isSome = true := by
    unfold buildMenu
    rw [List.foldl_append, List.foldl_cons]
    exact foldl_toMenuStep_mono isApp uops l2 _ p
      (toMenuStep_parent_present isApp uops _ d p huser happ hpar)
  rcases hmg : mgetMenu (buildMenu (l1 ++ d :: l2) isApp uops) p with _ | v
  · rw [hmg] at hsome
    cases hsome
  · rfl

/-- Witness for C7 (amended) at a concrete orphaned parent. -/
theorem orphan_parent_in_map_witness :
    (mgetMenu (toMenu
      [⟨strBytes "c", none, none, none, none, some (strBytes "p"), false⟩]
      false [strBytes "c"]) (strBytes "p")).isSome = true :=
  orphan_parent_in_map
    [⟨strBytes "c", none, none, none, none, some (strBytes "p"), false⟩]
    false [strBytes "c"]
    ⟨strBytes "c", none, none, none, none, some (strBytes "p"), false⟩
    (strBytes "p") (by simp) rfl (fun h => by cases h) rfl

/-- Counterexample to C7 as stated: for a permission sheet whose only
operation `c` is allowed and declares the never-defined parent key `p`, the
synthetic placeholder parent is present in the final top-level map returned
by the menu builder, keyed `p` and holding the orphan child — it is not
invisible. -/
theorem orphan_parent_visible_counterexample :
    mgetMenu (toMenu
      [⟨strBytes "c", none, none, none, none, some (strBytes "p"), false⟩]
      false [strBytes "c"]) (strBytes "p") =
      some (.mk (strBytes "p") (strBytes "p") [] [] 0 none
        [.mk (strBytes "c") (strBytes "c") [] [] 0 (some (strBytes "p")) []]) :=
  rfl

/-- C10: the menu builder is order-dependent and can drop children.  If a
parentless descriptor `p` is processed after a descriptor `c` that named
`p.key` as its parent (auto-vivifying a placeholder holding `c`'s item),
`menu[p.key] = menuItem` overwrites the placeholder with a fresh node whose
children list is empty — the previously attached child vanishes from the
returned map (and `c.key` has no top-level entry of its own).  Processing
`p` before `c` retains the child. -/
theorem menu_order_dependent (c p : OperationDesc) (uops : List Str)
    (hcp : effParent c.parent = some p.key) (hpp : effParent p.parent = none)
    (hck : uops.contains c.key = true) (hpk : uops.contains p.key = true)
    (hne : c.key ≠ p.key) :
    mgetMenu (toMenu [c, p] false uops) p.key =
      some ((mkMenuItem p).withChildren []) ∧
    mgetMenu (toMenu [c, p] false uops) c.key = none ∧
    mgetMenu (toMenu [p, c] false uops) p.key =
      some ((mkMenuItem p).withChildren [mkMenuItem c]) := by
  have hmc : c.key ∈ uops := by simpa using hck
  have hmp : p.key ∈ uops := by simpa using hpk
  have hcomp : ∀ (m : MenuItem) (a b : List MenuItem),
      (m.withChildren a).withChildren b = m.withChildren b := by
    intro m a b
    cases m
    rfl
  have hmkc : (mkMenuItem p).children = [] := rfl
  have hstep1 : toMenuStep false uops [] c =
      [(p.key, (placeholderItem p.key).withChildren [mkMenuItem c])] := by
    simp [toMenuStep, hmc, hcp, mgetMenu, msetMenu, mpushChild,
      placeholderItem, MenuItem.children, MenuItem.withChildren]
  have hstep2 :
      toMenuStep false uops
        [(p.key, (placeholderItem p.key).withChildren [mkMenuItem c])] p =
      [(p.key, mkMenuItem p)] := by
    simp [toMenuStep, hmp, hpp, msetMenu]
  have hstep3 : toMenuStep false uops [] p = [(p.key, mkMenuItem p)] := by
    simp [toMenuStep, hmp, hpp, msetMenu]
  have hstep4 : toMenuStep false uops [(p.key, mkMenuItem p)] c =
      [(p.key, (mkMenuItem p).withChildren [mkMenuItem c])] := by
    simp only [toMenuStep, hcp]
    rw [if_neg (by simp [hmc])]
    simp [mgetMenu, mpushChild, hmkc]
  refine ⟨?_, ?_, ?_⟩
  · unfold toMenu buildMenu
    rw [List.foldl_cons, List.foldl_cons, List.foldl_nil, hstep1, hstep2]
    simp only [List.map_cons, List.map_nil, mgetMenu, if_pos rfl,
      MenuItem.children_withChildren, hmkc, sortByOrder]
    simp
  · unfold toMenu buildMenu
    rw [List.foldl_cons, List.foldl_cons, List.foldl_nil, hstep1, hstep2]
    simp only [List.map_cons, List.map_nil, mgetMenu]
    rw [if_neg (fun h => hne h.symm)]
  · unfold toMenu buildMenu
    rw [List.foldl_cons, List.foldl_cons, List.foldl_nil, hstep3, hstep4]
    simp only [List.map_cons, List.map_nil, mgetMenu, if_pos rfl,
      MenuItem.children_withChildren, sortByOrder, ordInsert, hcomp]
    simp

/-- Witness for C10 at concrete descriptors `c` (parent `"p"`) and `p`. -/
theorem menu_order_dependent_witness :
    mgetMenu (toMenu
        [⟨strBytes "c", none, none, none, none, some (strBytes "p"), false⟩,
          ⟨strBytes "p", none, none, none, none, none, false⟩]
        false [strBytes "c", strBytes "p"]) (strBytes "p") =
      some ((mkMenuItem
        ⟨strBytes "p", none, none, none, none, none, false⟩).withChildren []) ∧
    mgetMenu (toMenu
        [⟨strBytes "c", none, none, none, none, some (strBytes "p"), false⟩,
          ⟨strBytes "p", none, none, none, none, none, false⟩]
        false [strBytes "c", strBytes "p"]) (strBytes "c") = none ∧
    mgetMenu (toMenu
        [⟨strBytes "p", none, none, none, none, none, false⟩,
          ⟨strBytes "c", none, none, none, none, some (strBytes "p"), false⟩]
        false [strBytes "c", strBytes "p"]) (strBytes "p") =
      some ((mkMenuItem
        ⟨strBytes "p", none, none, none, none, none, false⟩).withChildren
          [mkMenuItem
            ⟨strBytes "c", none, none, none, none, some (strBytes "p"), false⟩]) :=
  menu_order_dependent
    ⟨strBytes "c", none, none, none, none, some (strBytes "p"), false⟩
    ⟨strBytes "p", none, none, none, none, none, false⟩
    [strBytes "c", strBytes "p"] rfl rfl (by simp) (by simp) (by decide)

/-!
## OIDC client refresh (`src/libs/openIDClient.js`)
-/

/-- JS truthiness of an optional string (`null`/`undefined` and `''` are
falsy). -/
def truthyStr (o : Option Str) : Prop :=
  match o with
  | some s => s ≠ []
  | none => False

instance (o : Option Str) : Decidable (truthyStr o) := by
  unfold truthyStr
  rcases o with _ | s
  · exact inferInstanceAs (Decidable False)
  · infer_instance

/-- The token fields held by an `OpenIDClient` instance. -/
structure OidcTokens where
  accessToken : Option Str
  idToken : Option Str
  refreshToken : Option Str
  tokenType : Option Str
  expiresIn : Option Int

/-- A `/token` endpoint response body; absent JSON fields are `none`. -/
structure TokenResponse where
  access_token : Option Str
  id_token : Option Str
  refresh_token : Option Str
  token_type : Option Str
  expires_in : Option Int

/-- `token_type || 'Bearer'`. -/
def tokenTypeOrBearer (o : Option Str) : Str :=
  match o with
  | some s => if s = [] then strBytes "Bearer" else s
  | none => strBytes "Bearer"

/-- `OpenIDClient.refreshAccessToken`, with the successful 200 response body
explicit (network/HTTP failures throw and leave the state unchanged, outside
this model): requires a truthy stored refresh token; then
`this.accessToken = tokenData.access_token` unconditionally, while
`id_token` and `refresh_token` only overwrite when truthy in the response;
`tokenType` defaults to `Bearer`; `expiresIn` is replaced. -/
def refreshAccessToken (st : OidcTokens) (resp : TokenResponse) :
    Option OidcTokens :=
  if truthyStr st.refreshToken then
    some
      ⟨resp.access_token,
        if truthyStr resp.id_token then resp.id_token else st.idToken,
        if truthyStr resp.refresh_token then resp.refresh_token
          else st.refreshToken,
        some (tokenTypeOrBearer resp.token_type),
        resp.expires_in⟩
  else none

/-- Counterexample to C8 as stated: with stored tokens `A`/`I`/`R` and a
response that omits every field, the refreshed state keeps `I` and `R` but
the stored access token is overwritten with `undefined` rather than
preserved. -/
theorem refresh_access_overwritten_counterexample :
    refreshAccessToken
      ⟨some (strBytes "A"), some (strBytes "I"), some (strBytes "R"),
        some (strBytes "Bearer"), some 60⟩
      ⟨none, none, none, none, none⟩ =
      some ⟨none, some (strBytes "I"), some (strBytes "R"),
        some (strBytes "Bearer"), none⟩ ∧
    (some (strBytes "A") : Option Str) ≠ none := by
  constructor
  · rfl
  · intro h
    cases h

/-- C8 (amended): after a successful `refreshAccessToken`, the stored
`id_token` and `refresh_token` fields are preserved when absent from the
response and replaced when present (and truthy); the stored access token is
*not* preserved — it is unconditionally replaced by the response's
`access_token` field, becoming absent when the response omits it. -/
theorem refresh_field_update (st : OidcTokens) (resp : TokenResponse)
    (h : truthyStr st.refreshToken) :
    ∃ st2, refreshAccessToken st resp = some st2 ∧
      st2.accessToken = resp.access_token ∧
      (resp.id_token = none → st2.idToken = st.idToken) ∧
      (resp.refresh_token = none → st2.refreshToken = st.refreshToken) ∧
      (∀ s, resp.id_token = some s → s ≠ [] → st2.idToken = some s) ∧
      (∀ s, resp.refresh_token = some s → s ≠ [] →
        st2.refreshToken = some s) ∧
      st2.expiresIn = resp.expires_in := by
  refine ⟨_, by rw [refreshAccessToken, if_pos h], rfl, ?_, ?_, ?_, ?_, rfl⟩
  · intro hnone
    simp [hnone, truthyStr]
  · intro hnone
    simp [hnone, truthyStr]
  · intro s hs hne
    simp [hs, truthyStr, hne]
  · intro s hs hne
    simp [hs, truthyStr, hne]

/-- Witness for C8 (amended) at a concrete state and response. -/
theorem refresh_field_update_witness :
    ∃ st2,
      refreshAccessToken
        ⟨some (strBytes "A"), some (strBytes "I"), some (strBytes "R"),
          some (strBytes "Bearer"), some 60⟩
        ⟨some (strBytes "A2"), none, none, none, some 90⟩ = some st2 ∧
      st2.accessToken = some (strBytes "A2") ∧
      ((none : Option Str) = none → st2.idToken = some (strBytes "I")) ∧
      ((none : Option Str) = none → st2.refreshToken = some (strBytes "R")) ∧
      (∀ s, (none : Option Str) = some s → s ≠ [] → st2.idToken = some s) ∧
      (∀ s, (none : Option Str) = some s → s ≠ [] →
        st2.refreshToken = some s) ∧
      st2.expiresIn = some 90 :=
  refresh_field_update
    ⟨some (strBytes "A"), some (strBytes "I"), some (strBytes "R"),
      some (strBytes "Bearer"), some 60⟩
    ⟨some (strBytes "A2"), none, none, none, some 90⟩ (by decide)
